import Mathlib

/-!
Verification of the local-vector-store retrieval engine against its
specification.  The development shallowly embeds the metadata filter
evaluators (`FAISSVectorStore._matches_filter`,
`KeywordSearchEngine._matches_filter`), the FAISS-backed store state and its
operations, the Chroma-backed store adapter, the BM25 keyword search
post-processing, and the reciprocal-rank-fusion algorithm, and proves or
refutes the specification claims about them.

Numbers are modelled by `Int` (metadata/filter literals) and `Rat` (scores);
the approximate-nearest-neighbor index and the BM25 scorer are external
libraries and are treated as opaque oracles, exactly as the spec's §1
prescribes.
-/

set_option maxHeartbeats 1600000

namespace LVS

/-- JSON-like values stored in document metadata and appearing as literals in
filter expressions: null, booleans, integers, strings and (nested) lists. -/
inductive J where
  | null : J
  | bool : Bool → J
  | int : Int → J
  | str : String → J
  | list : List J → J

mutual
/-- Python `==` on `J` values.  Python treats `True == 1` and `False == 0` as
true (bool is an int subtype); lists compare elementwise; values of other
mixed types are unequal. -/
def pyEq : J → J → Bool
  | .null, .null => true
  | .bool a, .bool b => a == b
  | .bool a, .int n => (if a then (1 : Int) else 0) == n
  | .int n, .bool a => n == (if a then (1 : Int) else 0)
  | .int m, .int n => m == n
  | .str s, .str t => s == t
  | .list xs, .list ys => pyEqList xs ys
  | _, _ => false

/-- Elementwise Python `==` on lists. -/
def pyEqList : List J → List J → Bool
  | [], [] => true
  | x :: xs, y :: ys => pyEq x y && pyEqList xs ys
  | _, _ => false
end

/-- Numeric view of a `J` value: Python booleans are integers. -/
def toNum : J → Option Int
  | .bool b => some (if b then 1 else 0)
  | .int n => some n
  | _ => none

mutual
/-- Python ordered comparison (`<`, `<=`, …) of two `J` values.  `none`
models a `TypeError`: ordering is defined between two numbers (booleans
count as integers), two strings, or two lists (lexicographically); every
other combination raises. -/
def pyCmp : J → J → Option Ordering
  | .str s, .str t => some (compare s t)
  | .list xs, .list ys => pyCmpList xs ys
  | a, b =>
    match toNum a, toNum b with
    | some m, some n => some (compare m n)
    | _, _ => none

/-- Python lexicographic list comparison: skip `==`-equal heads, then compare
the first differing pair (which may raise). -/
def pyCmpList : List J → List J → Option Ordering
  | [], [] => some .eq
  | [], _ :: _ => some .lt
  | _ :: _, [] => some .gt
  | x :: xs, y :: ys => if pyEq x y then pyCmpList xs ys else pyCmp x y
end

/-- `needle` occurs as a substring of `hay` (Python `needle in hay` for
strings). -/
def strHasSubstr (needle hay : String) : Bool :=
  hay.data.tails.any (fun t => needle.data.isPrefixOf t)

/-- Python membership `v in t`: for a list target, `==`-membership; for a
string target, substring test (raising unless `v` is a string); every other
target raises (`none`). -/
def pyIn (v t : J) : Option Bool :=
  match t with
  | .list xs => some (xs.any (fun x => pyEq v x))
  | .str s =>
    match v with
    | .str sv => some (strHasSubstr sv s)
    | _ => none
  | _ => none

/-- Python `key.startswith("$")`: the first character is a dollar sign. -/
def startsWithDollar (k : String) : Bool :=
  match k.data with
  | [] => false
  | c :: _ => c == Char.ofNat 36

/-- Python `value is None`: the value is null (a missing metadata key is
read as `None`). -/
def isNull : J → Bool
  | .null => true
  | _ => false

/-- A single field condition of the §4.1 filter grammar: a bare literal
(implicit equality) or an operator object `{"$op": target, ...}`. -/
inductive FCond where
  | lit : J → FCond
  | ops : List (String × J) → FCond

/-- Filter expressions of the §4.1 grammar: compounds `$and`/`$or`/`$not`
and mappings of field names to conditions. -/
inductive FExpr where
  | and : List FExpr → FExpr
  | or : List FExpr → FExpr
  | not : FExpr → FExpr
  | flds : List (String × FCond) → FExpr

/-- Document metadata: an ordered mapping from string keys to values. -/
abbrev Metadata := List (String × J)

namespace FAISSVectorStore

/-- One operator check inside `FAISSVectorStore._matches_filter`'s inner
loop.  `.ok false` means the whole filter fails here, `.ok true` means this
operator imposes no failure (evaluation continues), `.error ()` models a
Python `TypeError` escaping from the comparison. -/
def opCheck (v : J) (op : String) (t : J) : Except Unit Bool :=
  if op == "$eq" then .ok (pyEq v t)
  else if op == "$ne" then .ok (!pyEq v t)
  else if op == "$gt" then
    if isNull v then .ok false
    else
      match pyCmp v t with
      | none => .error ()
      | some o => .ok (o == .gt)
  else if op == "$gte" then
    if isNull v then .ok false
    else
      match pyCmp v t with
      | none => .error ()
      | some o => .ok (!(o == .lt))
  else if op == "$lt" then
    if isNull v then .ok false
    else
      match pyCmp v t with
      | none => .error ()
      | some o => .ok (o == .lt)
  else if op == "$lte" then
    if isNull v then .ok false
    else
      match pyCmp v t with
      | none => .error ()
      | some o => .ok (!(o == .gt))
  else if op == "$in" then
    match pyIn v t with
    | none => .error ()
    | some b => .ok b
  else if op == "$nin" then
    match pyIn v t with
    | none => .error ()
    | some b => .ok (!b)
  else if op == "$contains" then
    match v with
    | .str sv =>
      match t with
      | .str st => .ok (strHasSubstr st sv)
      | _ => .error ()
    | .list xs => .ok (xs.any (fun x => pyEq t x))
    | _ => .ok true
  else .ok true

/-- The inner `for op, target in condition.items()` loop of
`FAISSVectorStore._matches_filter`. -/
def condCheck (v : J) : List (String × J) → Except Unit Bool
  | [] => .ok true
  | (op, t) :: rest =>
    match opCheck v op t with
    | .error e => .error e
    | .ok false => .ok false
    | .ok true => condCheck v rest

mutual
/-- `FAISSVectorStore._matches_filter` over the §4.1 filter grammar.
`.error ()` models an uncaught Python exception during evaluation. -/
def matchesFilter (m : Metadata) : FExpr → Except Unit Bool
  | .and cs => matchesAll m cs
  | .or cs => matchesAny m cs
  | .not c =>
    match matchesFilter m c with
    | .error e => .error e
    | .ok b => .ok (!b)
  | .flds kvs => matchesFields m kvs

/-- `all(self._matches_filter(metadata, c) for c in condition)`: lazy
conjunction, stopping at the first false conjunct. -/
def matchesAll (m : Metadata) : List FExpr → Except Unit Bool
  | [] => .ok true
  | c :: cs =>
    match matchesFilter m c with
    | .error e => .error e
    | .ok true => matchesAll m cs
    | .ok false => .ok false

/-- `any(self._matches_filter(metadata, c) for c in condition)`: lazy
disjunction, stopping at the first true disjunct. -/
def matchesAny (m : Metadata) : List FExpr → Except Unit Bool
  | [] => .ok false
  | c :: cs =>
    match matchesFilter m c with
    | .error e => .error e
    | .ok true => .ok true
    | .ok false => matchesAny m cs

/-- The outer `for key, condition in filters.items()` loop: an absent
metadata key yields Python `None`, modelled as `J.null`. -/
def matchesFields (m : Metadata) : List (String × FCond) → Except Unit Bool
  | [] => .ok true
  | (k, cond) :: rest =>
    let v := (m.lookup k).getD .null
    match cond with
    | .lit l => if pyEq v l then matchesFields m rest else .ok false
    | .ops os =>
      match condCheck v os with
      | .error e => .error e
      | .ok true => matchesFields m rest
      | .ok false => .ok false
end

end FAISSVectorStore

namespace KeywordSearchEngine

/-- One operator check inside `KeywordSearchEngine._matches_filter`: same as
the FAISS store's, except `$contains` only implements the string case (a
list-valued field imposes no constraint). -/
def opCheck (v : J) (op : String) (t : J) : Except Unit Bool :=
  if op == "$contains" then
    match v with
    | .str sv =>
      match t with
      | .str st => .ok (strHasSubstr st sv)
      | _ => .error ()
    | _ => .ok true
  else FAISSVectorStore.opCheck v op t

/-- The inner operator loop of `KeywordSearchEngine._matches_filter`. -/
def condCheck (v : J) : List (String × J) → Except Unit Bool
  | [] => .ok true
  | (op, t) :: rest =>
    match opCheck v op t with
    | .error e => .error e
    | .ok false => .ok false
    | .ok true => condCheck v rest

mutual
/-- `KeywordSearchEngine._matches_filter`: like the FAISS store's evaluator,
but any field key starting with `$` that is not a recognized compound is
skipped (`continue`) instead of being looked up in the metadata. -/
def matchesFilter (m : Metadata) : FExpr → Except Unit Bool
  | .and cs => matchesAll m cs
  | .or cs => matchesAny m cs
  | .not c =>
    match matchesFilter m c with
    | .error e => .error e
    | .ok b => .ok (!b)
  | .flds kvs => matchesFields m kvs

/-- Lazy conjunction over sub-filters. -/
def matchesAll (m : Metadata) : List FExpr → Except Unit Bool
  | [] => .ok true
  | c :: cs =>
    match matchesFilter m c with
    | .error e => .error e
    | .ok true => matchesAll m cs
    | .ok false => .ok false

/-- Lazy disjunction over sub-filters. -/
def matchesAny (m : Metadata) : List FExpr → Except Unit Bool
  | [] => .ok false
  | c :: cs =>
    match matchesFilter m c with
    | .error e => .error e
    | .ok true => .ok true
    | .ok false => matchesAny m cs

/-- The outer field loop; `$`-prefixed plain keys are skipped. -/
def matchesFields (m : Metadata) : List (String × FCond) → Except Unit Bool
  | [] => .ok true
  | (k, cond) :: rest =>
    if startsWithDollar k then matchesFields m rest
    else
      let v := (m.lookup k).getD .null
      match cond with
      | .lit l => if pyEq v l then matchesFields m rest else .ok false
      | .ops os =>
        match condCheck v os with
        | .error e => .error e
        | .ok true => matchesFields m rest
        | .ok false => .ok false
end

end KeywordSearchEngine

/-- The operator names the §4.1 grammar recognizes. -/
def specKnownOp (op : String) : Bool :=
  op == "$eq" || op == "$ne" || op == "$gt" || op == "$gte" || op == "$lt" ||
    op == "$lte" || op == "$in" || op == "$nin" || op == "$contains"

/-- Modelled from the spec, §4.1: reference semantics of one operator.  A
null (or missing) value "fails every comparison except `$ne` (succeeds) and
`$nin` (succeeds)"; unrecognized operators impose no constraint; `$in`/`$nin`
test membership in a literal list; `$contains` is a substring test for
string fields and an element test for list fields. -/
def specOpHolds (v : J) (op : String) (t : J) : Bool :=
  if !specKnownOp op then true
  else
    match v with
    | .null => op == "$ne" || op == "$nin"
    | _ =>
      if op == "$eq" then pyEq v t
      else if op == "$ne" then !pyEq v t
      else if op == "$gt" then
        match pyCmp v t with
        | some o => o == .gt
        | none => false
      else if op == "$gte" then
        match pyCmp v t with
        | some o => !(o == .lt)
        | none => false
      else if op == "$lt" then
        match pyCmp v t with
        | some o => o == .lt
        | none => false
      else if op == "$lte" then
        match pyCmp v t with
        | some o => !(o == .gt)
        | none => false
      else if op == "$in" then
        match t with
        | .list xs => xs.any (fun x => pyEq v x)
        | _ => false
      else if op == "$nin" then
        match t with
        | .list xs => !xs.any (fun x => pyEq v x)
        | _ => true
      else
        match v, t with
        | .str sv, .str st => strHasSubstr st sv
        | .list xs, _ => xs.any (fun x => pyEq t x)
        | _, _ => false

/-- Modelled from the spec, §4.1: reference semantics of one field
condition (implicit equality for a bare literal). -/
def specCondHolds (v : J) : FCond → Bool
  | .lit l =>
    match v with
    | .null => false
    | _ => pyEq v l
  | .ops os => os.all fun p => specOpHolds v p.1 p.2

mutual
/-- Modelled from the spec, §4.1: the reference boolean evaluation of a
filter expression against a metadata mapping. -/
def specMatches (m : Metadata) : FExpr → Bool
  | .and cs => specAll m cs
  | .or cs => specAny m cs
  | .not c => !specMatches m c
  | .flds kvs => specFields m kvs

/-- Reference conjunction over sub-filters. -/
def specAll (m : Metadata) : List FExpr → Bool
  | [] => true
  | c :: cs => specMatches m c && specAll m cs

/-- Reference disjunction over sub-filters. -/
def specAny (m : Metadata) : List FExpr → Bool
  | [] => false
  | c :: cs => specMatches m c || specAny m cs

/-- Reference conjunction over field conditions. -/
def specFields (m : Metadata) : List (String × FCond) → Bool
  | [] => true
  | (k, cond) :: rest => specCondHolds ((m.lookup k).getD .null) cond && specFields m rest
end

/-- Amended reference semantics of one operator: like `specOpHolds` except
that a null/missing value participates in ordinary Python equality under
`$eq`/`$ne`/`$in`/`$nin` (so e.g. `$ne` with a null target fails on a
missing field) and imposes no constraint under `$contains`.  Its value on
inputs where the implementation raises is irrelevant (agreement is only
claimed on raise-free evaluations). -/
def refOpHolds (v : J) (op : String) (t : J) : Bool :=
  if op == "$eq" then pyEq v t
  else if op == "$ne" then !pyEq v t
  else if op == "$gt" then
    if isNull v then false
    else
      match pyCmp v t with
      | some o => o == .gt
      | none => false
  else if op == "$gte" then
    if isNull v then false
    else
      match pyCmp v t with
      | some o => !(o == .lt)
      | none => false
  else if op == "$lt" then
    if isNull v then false
    else
      match pyCmp v t with
      | some o => o == .lt
      | none => false
  else if op == "$lte" then
    if isNull v then false
    else
      match pyCmp v t with
      | some o => !(o == .gt)
      | none => false
  else if op == "$in" then (pyIn v t).getD false
  else if op == "$nin" then
    match pyIn v t with
    | some b => !b
    | none => false
  else if op == "$contains" then
    match v with
    | .str sv =>
      match t with
      | .str st => strHasSubstr st sv
      | _ => false
    | .list xs => xs.any (fun x => pyEq t x)
    | _ => true
  else true

/-- Amended reference semantics of one field condition. -/
def refCondHolds (v : J) : FCond → Bool
  | .lit l => pyEq v l
  | .ops os => os.all fun p => refOpHolds v p.1 p.2

mutual
/-- The amended reference boolean evaluation: `specMatches` with the
missing-field semantics corrected to what the implementation does (see
`refOpHolds` and `refCondHolds`). -/
def refMatches (m : Metadata) : FExpr → Bool
  | .and cs => refAll m cs
  | .or cs => refAny m cs
  | .not c => !refMatches m c
  | .flds kvs => refFields m kvs

/-- Amended reference conjunction over sub-filters. -/
def refAll (m : Metadata) : List FExpr → Bool
  | [] => true
  | c :: cs => refMatches m c && refAll m cs

/-- Amended reference disjunction over sub-filters. -/
def refAny (m : Metadata) : List FExpr → Bool
  | [] => false
  | c :: cs => refMatches m c || refAny m cs

/-- Amended reference conjunction over field conditions. -/
def refFields (m : Metadata) : List (String × FCond) → Bool
  | [] => true
  | (k, cond) :: rest => refCondHolds ((m.lookup k).getD .null) cond && refFields m rest
end

/-- A comparison is type-safe when the value/target combination cannot raise
a Python `TypeError` in `_matches_filter`. -/
def opSafe (v : J) (op : String) (t : J) : Bool :=
  if op == "$eq" then true
  else if op == "$ne" then true
  else if op == "$gt" then isNull v || (pyCmp v t).isSome
  else if op == "$gte" then isNull v || (pyCmp v t).isSome
  else if op == "$lt" then isNull v || (pyCmp v t).isSome
  else if op == "$lte" then isNull v || (pyCmp v t).isSome
  else if op == "$in" then (pyIn v t).isSome
  else if op == "$nin" then (pyIn v t).isSome
  else if op == "$contains" then
    match v, t with
    | .str _, .str _ => true
    | .str _, _ => false
    | _, _ => true
  else true

/-- Type-safety of one field condition against a concrete field value. -/
def condSafe (v : J) : FCond → Bool
  | .lit _ => true
  | .ops os => os.all fun p => opSafe v p.1 p.2

mutual
/-- A filter expression is well-typed for a metadata mapping when every
operator it applies is type-compatible with the field value it is applied
to (so evaluation cannot raise). -/
def wellTyped (m : Metadata) : FExpr → Bool
  | .and cs => wtList m cs
  | .or cs => wtList m cs
  | .not c => wellTyped m c
  | .flds kvs => kvs.all fun p => condSafe ((m.lookup p.1).getD .null) p.2

/-- Well-typedness of a list of sub-filters. -/
def wtList (m : Metadata) : List FExpr → Bool
  | [] => true
  | c :: cs => wellTyped m c && wtList m cs
end

/-- Structural induction for `FExpr` recursing through the nested lists of
`$and`/`$or`. -/
def FExpr.recNested {motive : FExpr → Prop}
    (hand : ∀ cs, (∀ c ∈ cs, motive c) → motive (.and cs))
    (hor : ∀ cs, (∀ c ∈ cs, motive c) → motive (.or cs))
    (hnot : ∀ c, motive c → motive (.not c))
    (hflds : ∀ kvs, motive (.flds kvs)) : ∀ e, motive e
  | .and cs => hand cs (fun c hc =>
      have : sizeOf c < sizeOf (FExpr.and cs) :=
        lt_of_lt_of_le (List.sizeOf_lt_of_mem hc) (by simp)
      FExpr.recNested hand hor hnot hflds c)
  | .or cs => hor cs (fun c hc =>
      have : sizeOf c < sizeOf (FExpr.or cs) :=
        lt_of_lt_of_le (List.sizeOf_lt_of_mem hc) (by simp)
      FExpr.recNested hand hor hnot hflds c)
  | .not c => hnot c (FExpr.recNested hand hor hnot hflds c)
  | .flds kvs => hflds kvs
termination_by e => sizeOf e

/-- Python banker's rounding of a rational to an integer (round half to
even). -/
def pyRoundInt (q : Rat) : Int :=
  let f := ⌊q⌋
  let r := q - (f : Rat)
  if r < 1/2 then f
  else if 1/2 < r then f + 1
  else if f % 2 = 0 then f
  else f + 1

/-- Python `round(x, 4)`: round to four decimal places, ties to even. -/
def round4 (q : Rat) : Rat := (pyRoundInt (q * 10000) : Rat) / 10000

/-- A condition contains no `$contains` operator. -/
def condClean : FCond → Bool
  | .lit _ => true
  | .ops os => os.all fun p => p.1 != "$contains"

mutual
/-- Filter expressions on which the two `_matches_filter` implementations
coincide: no plain field key starting with `$` and no `$contains`
operator. -/
def cleanFilter : FExpr → Bool
  | .and cs => cleanList cs
  | .or cs => cleanList cs
  | .not c => cleanFilter c
  | .flds kvs => kvs.all fun p => !startsWithDollar p.1 && condClean p.2

/-- `cleanFilter` on a list of sub-filters. -/
def cleanList : List FExpr → Bool
  | [] => true
  | c :: cs => cleanFilter c && cleanList cs
end

/-! ### Agreement of `FAISSVectorStore._matches_filter` with the amended
reference evaluation -/

theorem opCheck_ok_refOpHolds (v : J) (op : String) (t : J) (b : Bool)
    (h : FAISSVectorStore.opCheck v op t = .ok b) : refOpHolds v op t = b := by
  unfold FAISSVectorStore.opCheck at h
  unfold refOpHolds
  split_ifs at h ⊢
  · exact Except.ok.inj h
  · exact Except.ok.inj h
  · exact Except.ok.inj h
  · cases hpc : pyCmp v t <;> simp_all
  · exact Except.ok.inj h
  · cases hpc : pyCmp v t <;> simp_all
  · exact Except.ok.inj h
  · cases hpc : pyCmp v t <;> simp_all
  · exact Except.ok.inj h
  · cases hpc : pyCmp v t <;> simp_all
  · cases hpi : pyIn v t <;> simp_all
  · cases hpi : pyIn v t <;> simp_all
  · cases v <;> (try (cases t)) <;> simp_all
  · exact Except.ok.inj h

theorem condCheck_ok_refCond (v : J) (os : List (String × J)) (b : Bool)
    (h : FAISSVectorStore.condCheck v os = .ok b) :
    (os.all fun p => refOpHolds v p.1 p.2) = b := by
  induction os with
  | nil =>
    rw [FAISSVectorStore.condCheck] at h
    simp_all
  | cons p rest ih =>
    obtain ⟨op, t⟩ := p
    rw [FAISSVectorStore.condCheck] at h
    cases hop : FAISSVectorStore.opCheck v op t with
    | error e => rw [hop] at h; cases h
    | ok b1 =>
      rw [hop] at h
      have hr := opCheck_ok_refOpHolds v op t b1 hop
      cases b1 with
      | false =>
        injection h with h
        subst h
        simp [hr]
      | true => simpa [hr] using ih h

theorem matchesFields_ok_refFields (m : Metadata) (kvs : List (String × FCond)) (b : Bool)
    (h : FAISSVectorStore.matchesFields m kvs = .ok b) : refFields m kvs = b := by
  induction kvs with
  | nil =>
    rw [FAISSVectorStore.matchesFields.eq_def] at h; dsimp only at h
    rw [refFields.eq_def]; dsimp only
    simp_all
  | cons p rest ih =>
    obtain ⟨k, cond⟩ := p
    rw [FAISSVectorStore.matchesFields.eq_def] at h; dsimp only at h
    rw [refFields.eq_def]; dsimp only
    cases cond with
    | lit l =>
      dsimp only at h
      split at h
      · rw [refCondHolds]
        simp_all
      · injection h with h
        subst h
        rw [refCondHolds]
        simp_all
    | ops os =>
      dsimp only at h
      cases hcc : FAISSVectorStore.condCheck ((m.lookup k).getD .null) os with
      | error e => rw [hcc] at h; cases h
      | ok b1 =>
        rw [hcc] at h
        have hr := condCheck_ok_refCond _ os b1 hcc
        cases b1 with
        | false =>
          injection h with h
          subst h
          simp [refCondHolds, hr]
        | true => simpa [refCondHolds, hr] using ih h

theorem matchesAll_ok_refAll (m : Metadata) (cs : List FExpr)
    (ih : ∀ c ∈ cs, ∀ b, FAISSVectorStore.matchesFilter m c = .ok b → refMatches m c = b)
    (b : Bool) (h : FAISSVectorStore.matchesAll m cs = .ok b) : refAll m cs = b := by
  induction cs with
  | nil =>
    rw [FAISSVectorStore.matchesAll.eq_def] at h; dsimp only at h
    rw [refAll.eq_def]; dsimp only
    simp_all
  | cons c cs ihl =>
    rw [FAISSVectorStore.matchesAll.eq_def] at h; dsimp only at h
    rw [refAll.eq_def]; dsimp only
    cases h1 : FAISSVectorStore.matchesFilter m c with
    | error e => rw [h1] at h; cases h
    | ok b1 =>
      rw [h1] at h
      have hc := ih c (List.mem_cons_self c cs) b1 h1
      cases b1 with
      | true =>
        simp only [hc, Bool.true_and]
        exact ihl (fun c' hm b' => ih c' (List.mem_cons_of_mem c hm) b') h
      | false =>
        injection h with h
        subst h
        simp [hc]

theorem matchesAny_ok_refAny (m : Metadata) (cs : List FExpr)
    (ih : ∀ c ∈ cs, ∀ b, FAISSVectorStore.matchesFilter m c = .ok b → refMatches m c = b)
    (b : Bool) (h : FAISSVectorStore.matchesAny m cs = .ok b) : refAny m cs = b := by
  induction cs with
  | nil =>
    rw [FAISSVectorStore.matchesAny.eq_def] at h; dsimp only at h
    rw [refAny.eq_def]; dsimp only
    simp_all
  | cons c cs ihl =>
    rw [FAISSVectorStore.matchesAny.eq_def] at h; dsimp only at h
    rw [refAny.eq_def]; dsimp only
    cases h1 : FAISSVectorStore.matchesFilter m c with
    | error e => rw [h1] at h; cases h
    | ok b1 =>
      rw [h1] at h
      have hc := ih c (List.mem_cons_self c cs) b1 h1
      cases b1 with
      | false =>
        simp only [hc, Bool.false_or]
        exact ihl (fun c' hm b' => ih c' (List.mem_cons_of_mem c hm) b') h
      | true =>
        injection h with h
        subst h
        simp [hc]

/-! ### Totality of evaluation on well-typed filters -/

theorem opSafe_opCheck_isOk (v : J) (op : String) (t : J) (h : opSafe v op t = true) :
    (FAISSVectorStore.opCheck v op t).isOk = true := by
  unfold opSafe at h
  unfold FAISSVectorStore.opCheck
  split_ifs at h ⊢
  · rfl
  · rfl
  · rfl
  · cases hpc : pyCmp v t <;> simp_all [Except.isOk, Except.toBool]
  · rfl
  · cases hpc : pyCmp v t <;> simp_all [Except.isOk, Except.toBool]
  · rfl
  · cases hpc : pyCmp v t <;> simp_all [Except.isOk, Except.toBool]
  · rfl
  · cases hpc : pyCmp v t <;> simp_all [Except.isOk, Except.toBool]
  · cases hpi : pyIn v t <;> simp_all [Except.isOk, Except.toBool]
  · cases hpi : pyIn v t <;> simp_all [Except.isOk, Except.toBool]
  · cases v <;> (try cases t) <;> simp_all [Except.isOk, Except.toBool]
  · rfl

theorem condSafe_condCheck_isOk (v : J) (os : List (String × J))
    (h : (os.all fun p => opSafe v p.1 p.2) = true) :
    (FAISSVectorStore.condCheck v os).isOk = true := by
  induction os with
  | nil => rfl
  | cons p rest ih =>
    obtain ⟨op, t⟩ := p
    simp only [List.all_cons, Bool.and_eq_true] at h
    rw [FAISSVectorStore.condCheck]
    have h1 := opSafe_opCheck_isOk v op t h.1
    cases hop : FAISSVectorStore.opCheck v op t with
    | error e => rw [hop] at h1; cases h1
    | ok b1 =>
      cases b1 with
      | false => rfl
      | true => exact ih h.2

theorem wtFields_matchesFields_isOk (m : Metadata) (kvs : List (String × FCond))
    (h : (kvs.all fun p => condSafe ((m.lookup p.1).getD .null) p.2) = true) :
    (FAISSVectorStore.matchesFields m kvs).isOk = true := by
  induction kvs with
  | nil => rfl
  | cons p rest ih =>
    obtain ⟨k, cond⟩ := p
    simp only [List.all_cons, Bool.and_eq_true] at h
    rw [FAISSVectorStore.matchesFields.eq_def]
    dsimp only
    cases cond with
    | lit l =>
      dsimp only
      split
      · exact ih h.2
      · rfl
    | ops os =>
      dsimp only
      have h1 := condSafe_condCheck_isOk ((m.lookup k).getD .null) os
        (by simpa [condSafe] using h.1)
      cases hcc : FAISSVectorStore.condCheck ((m.lookup k).getD .null) os with
      | error e => rw [hcc] at h1; cases h1
      | ok b1 =>
        cases b1 with
        | false => rfl
        | true => exact ih h.2

theorem wtList_matchesAll_isOk (m : Metadata) (cs : List FExpr)
    (ih : ∀ c ∈ cs, wellTyped m c = true → (FAISSVectorStore.matchesFilter m c).isOk = true)
    (h : wtList m cs = true) : (FAISSVectorStore.matchesAll m cs).isOk = true := by
  induction cs with
  | nil => rfl
  | cons c cs ihl =>
    rw [wtList.eq_def] at h
    dsimp only at h
    simp only [Bool.and_eq_true] at h
    rw [FAISSVectorStore.matchesAll.eq_def]
    dsimp only
    have h1 := ih c (List.mem_cons_self c cs) h.1
    cases h2 : FAISSVectorStore.matchesFilter m c with
    | error e => rw [h2] at h1; cases h1
    | ok b1 =>
      cases b1 with
      | true => exact ihl (fun c' hm => ih c' (List.mem_cons_of_mem c hm)) h.2
      | false => rfl

theorem wtList_matchesAny_isOk (m : Metadata) (cs : List FExpr)
    (ih : ∀ c ∈ cs, wellTyped m c = true → (FAISSVectorStore.matchesFilter m c).isOk = true)
    (h : wtList m cs = true) : (FAISSVectorStore.matchesAny m cs).isOk = true := by
  induction cs with
  | nil => rfl
  | cons c cs ihl =>
    rw [wtList.eq_def] at h
    dsimp only at h
    simp only [Bool.and_eq_true] at h
    rw [FAISSVectorStore.matchesAny.eq_def]
    dsimp only
    have h1 := ih c (List.mem_cons_self c cs) h.1
    cases h2 : FAISSVectorStore.matchesFilter m c with
    | error e => rw [h2] at h1; cases h1
    | ok b1 =>
      cases b1 with
      | false => exact ihl (fun c' hm => ih c' (List.mem_cons_of_mem c hm)) h.2
      | true => rfl

/-! ### Equivalence of the two evaluators on clean filters -/

theorem kwOpCheck_eq_opCheck (v : J) (op : String) (t : J) (h : (op == "$contains") = false) :
    KeywordSearchEngine.opCheck v op t = FAISSVectorStore.opCheck v op t := by
  unfold KeywordSearchEngine.opCheck
  simp [h]

theorem kwCondCheck_eq (v : J) (os : List (String × J))
    (h : (os.all fun p => p.1 != "$contains") = true) :
    KeywordSearchEngine.condCheck v os = FAISSVectorStore.condCheck v os := by
  induction os with
  | nil => rfl
  | cons p rest ih =>
    obtain ⟨op, t⟩ := p
    simp only [List.all_cons, Bool.and_eq_true, bne] at h
    rw [KeywordSearchEngine.condCheck, FAISSVectorStore.condCheck]
    rw [kwOpCheck_eq_opCheck v op t (by simpa using h.1)]
    rw [ih h.2]

theorem kwFields_eq (m : Metadata) (kvs : List (String × FCond))
    (h : (kvs.all fun p => !startsWithDollar p.1 && condClean p.2) = true) :
    KeywordSearchEngine.matchesFields m kvs = FAISSVectorStore.matchesFields m kvs := by
  induction kvs with
  | nil => rfl
  | cons p rest ih =>
    obtain ⟨k, cond⟩ := p
    simp only [List.all_cons, Bool.and_eq_true] at h
    obtain ⟨⟨hk, hc⟩, hrest⟩ := h
    rw [Bool.not_eq_true'] at hk
    rw [KeywordSearchEngine.matchesFields.eq_def, FAISSVectorStore.matchesFields.eq_def]
    dsimp only
    rw [if_neg (by simp [hk])]
    cases cond with
    | lit l =>
      dsimp only
      rw [ih hrest]
    | ops os =>
      dsimp only
      rw [kwCondCheck_eq _ os (by simpa [condClean] using hc)]
      rw [ih hrest]

theorem kwAll_eq (m : Metadata) (cs : List FExpr)
    (ih : ∀ c ∈ cs, cleanFilter c = true →
      KeywordSearchEngine.matchesFilter m c = FAISSVectorStore.matchesFilter m c)
    (h : cleanList cs = true) :
    KeywordSearchEngine.matchesAll m cs = FAISSVectorStore.matchesAll m cs := by
  induction cs with
  | nil => rfl
  | cons c cs ihl =>
    rw [cleanList.eq_def] at h
    dsimp only at h
    simp only [Bool.and_eq_true] at h
    rw [KeywordSearchEngine.matchesAll.eq_def, FAISSVectorStore.matchesAll.eq_def]
    dsimp only
    rw [ih c (List.mem_cons_self c cs) h.1]
    rw [ihl (fun c' hm => ih c' (List.mem_cons_of_mem c hm)) h.2]

theorem kwAny_eq (m : Metadata) (cs : List FExpr)
    (ih : ∀ c ∈ cs, cleanFilter c = true →
      KeywordSearchEngine.matchesFilter m c = FAISSVectorStore.matchesFilter m c)
    (h : cleanList cs = true) :
    KeywordSearchEngine.matchesAny m cs = FAISSVectorStore.matchesAny m cs := by
  induction cs with
  | nil => rfl
  | cons c cs ihl =>
    rw [cleanList.eq_def] at h
    dsimp only at h
    simp only [Bool.and_eq_true] at h
    rw [KeywordSearchEngine.matchesAny.eq_def, FAISSVectorStore.matchesAny.eq_def]
    dsimp only
    rw [ih c (List.mem_cons_self c cs) h.1]
    rw [ihl (fun c' hm => ih c' (List.mem_cons_of_mem c hm)) h.2]

/-! ### Claim C1 -/

/-- C1 counterexample: on the empty metadata mapping and the filter
`{"a": {"$ne": null}}` the implementation returns `false` (the missing key
reads as `None`, and `None == None`), while the §4.1 reference semantics
says a missing field trivially satisfies `$ne`, hence `true`.  So `matches`
does not agree with the spec's reference evaluation. -/
theorem C1_counterexample :
    FAISSVectorStore.matchesFilter [] (.flds [("a", .ops [("$ne", .null)])]) = .ok false ∧
      specMatches [] (.flds [("a", .ops [("$ne", .null)])]) = true :=
  ⟨rfl, rfl⟩

/-- C1 (amended): whenever `_matches_filter` completes without raising, it
agrees with the amended reference evaluation `refMatches` — §4.1's semantics
with the missing/null-field rules corrected to the implementation's: a
null/missing value participates in ordinary Python equality under
`$eq`/`$ne`/`$in`/`$nin`, fails the ordered comparisons, and imposes no
constraint under `$contains`.  This covers every metadata mapping, every
filter expression of the grammar, and `$and`/`$or`/`$not` nesting of any
depth. -/
theorem C1_matches_agrees_with_reference (e : FExpr) :
    ∀ (m : Metadata) (b : Bool),
      FAISSVectorStore.matchesFilter m e = .ok b → refMatches m e = b := by
  induction e using FExpr.recNested with
  | hand cs ih =>
    intro m b h
    rw [FAISSVectorStore.matchesFilter.eq_def] at h
    dsimp only at h
    rw [refMatches.eq_def]
    dsimp only
    exact matchesAll_ok_refAll m cs (fun c hc b' => ih c hc m b') b h
  | hor cs ih =>
    intro m b h
    rw [FAISSVectorStore.matchesFilter.eq_def] at h
    dsimp only at h
    rw [refMatches.eq_def]
    dsimp only
    exact matchesAny_ok_refAny m cs (fun c hc b' => ih c hc m b') b h
  | hnot c ih =>
    intro m b h
    rw [FAISSVectorStore.matchesFilter.eq_def] at h
    dsimp only at h
    rw [refMatches.eq_def]
    dsimp only
    cases h1 : FAISSVectorStore.matchesFilter m c with
    | error e => rw [h1] at h; cases h
    | ok b1 =>
      rw [h1] at h
      injection h with h
      subst h
      rw [ih m b1 h1]
  | hflds kvs =>
    intro m b h
    rw [FAISSVectorStore.matchesFilter.eq_def] at h
    dsimp only at h
    rw [refMatches.eq_def]
    dsimp only
    exact matchesFields_ok_refFields m kvs b h

/-- Witness for C1: a nested `$and`/`$or`/`$not` filter of depth 3 evaluated
on a concrete mapping, where the implementation returns `.ok true` and the
amended reference agrees. -/
theorem C1_witness :
    refMatches [("a", J.int 3), ("b", J.str "xy")]
      (.and [.flds [("a", .ops [("$gte", .int 2)])],
             .or [.not (.flds [("b", .lit (.str "z"))]),
                  .flds [("c", .ops [("$ne", .int 1)])]]]) = true :=
  C1_matches_agrees_with_reference
    (.and [.flds [("a", .ops [("$gte", .int 2)])],
           .or [.not (.flds [("b", .lit (.str "z"))]),
                .flds [("c", .ops [("$ne", .int 1)])]]])
    [("a", J.int 3), ("b", J.str "xy")] true rfl

/-! ### Claim C2 -/

/-- C2 counterexample: evaluation is not total.  On the metadata mapping
`{"a": "x"}` and the filter `{"a": {"$gt": 1}}` the implementation executes
Python `"x" <= 1`, which raises `TypeError`, modelled by `.error ()`. -/
theorem C2_counterexample :
    FAISSVectorStore.matchesFilter [("a", .str "x")]
      (.flds [("a", .ops [("$gt", .int 1)])]) = .error () :=
  rfl

/-- C2 (amended): evaluation returns a boolean (never raises) on every
well-typed input — every ordered comparison is between two numbers, two
strings or two comparable lists, every `$in`/`$nin` target is a list (or a
string matched against a string value), and `$contains` on a string field
has a string target.  On type-incompatible combinations (e.g. a string
value under `$gt` against an integer target, or `$in` against a non-list
target) evaluation raises `TypeError` instead of returning a boolean.
Unrecognized operators impose no constraint. -/
theorem C2_wellTyped_evaluation_total (e : FExpr) :
    ∀ m, wellTyped m e = true → (FAISSVectorStore.matchesFilter m e).isOk = true := by
  induction e using FExpr.recNested with
  | hand cs ih =>
    intro m h
    rw [wellTyped.eq_def] at h
    dsimp only at h
    rw [FAISSVectorStore.matchesFilter.eq_def]
    dsimp only
    exact wtList_matchesAll_isOk m cs (fun c hc => ih c hc m) h
  | hor cs ih =>
    intro m h
    rw [wellTyped.eq_def] at h
    dsimp only at h
    rw [FAISSVectorStore.matchesFilter.eq_def]
    dsimp only
    exact wtList_matchesAny_isOk m cs (fun c hc => ih c hc m) h
  | hnot c ih =>
    intro m h
    rw [wellTyped.eq_def] at h
    dsimp only at h
    rw [FAISSVectorStore.matchesFilter.eq_def]
    dsimp only
    have h1 := ih m h
    cases h2 : FAISSVectorStore.matchesFilter m c with
    | error e => rw [h2] at h1; cases h1
    | ok b1 => rfl
  | hflds kvs =>
    intro m h
    rw [wellTyped.eq_def] at h
    dsimp only at h
    rw [FAISSVectorStore.matchesFilter.eq_def]
    dsimp only
    exact wtFields_matchesFields_isOk m kvs h

/-- Witness for C2: a concrete well-typed filter evaluates without raising. -/
theorem C2_witness :
    wellTyped [("a", J.str "x")] (.flds [("a", .ops [("$in", .list [.str "x", .str "y"])])]) = true ∧
      (FAISSVectorStore.matchesFilter [("a", J.str "x")]
        (.flds [("a", .ops [("$in", .list [.str "x", .str "y"])])])).isOk = true :=
  ⟨rfl, C2_wellTyped_evaluation_total
    (.flds [("a", .ops [("$in", .list [.str "x", .str "y"])])]) [("a", J.str "x")] rfl⟩

/-! ### Claim C3 -/

/-- C3 counterexample: the two evaluators disagree.  On the empty metadata
mapping and the filter `{"$x": 1}`, the FAISS store's evaluator looks the
key `"$x"` up in the metadata (getting `None ≠ 1`, hence `false`), while the
keyword engine's evaluator skips every unrecognized `$`-prefixed key and
returns `true`. -/
theorem C3_counterexample :
    FAISSVectorStore.matchesFilter [] (.flds [("$x", .lit (.int 1))]) = .ok false ∧
      KeywordSearchEngine.matchesFilter [] (.flds [("$x", .lit (.int 1))]) = .ok true :=
  ⟨rfl, rfl⟩

/-- C3 (amended): the two `_matches_filter` implementations return the same
result (boolean or raised exception) on every metadata mapping and every
filter expression that contains no plain field key starting with `$` and no
`$contains` operator.  (They differ on `$`-prefixed field keys, which the
keyword engine skips, and on `$contains` over list-valued fields, which the
keyword engine does not implement.) -/
theorem C3_evaluators_agree_on_clean_filters (e : FExpr) (he : cleanFilter e = true) :
    ∀ m, KeywordSearchEngine.matchesFilter m e = FAISSVectorStore.matchesFilter m e := by
  induction e using FExpr.recNested with
  | hand cs ih =>
    intro m
    rw [cleanFilter.eq_def] at he
    dsimp only at he
    rw [KeywordSearchEngine.matchesFilter.eq_def, FAISSVectorStore.matchesFilter.eq_def]
    dsimp only
    exact kwAll_eq m cs (fun c hc hcl => ih c hc hcl m) he
  | hor cs ih =>
    intro m
    rw [cleanFilter.eq_def] at he
    dsimp only at he
    rw [KeywordSearchEngine.matchesFilter.eq_def, FAISSVectorStore.matchesFilter.eq_def]
    dsimp only
    exact kwAny_eq m cs (fun c hc hcl => ih c hc hcl m) he
  | hnot c ih =>
    intro m
    rw [cleanFilter.eq_def] at he
    dsimp only at he
    rw [KeywordSearchEngine.matchesFilter.eq_def, FAISSVectorStore.matchesFilter.eq_def]
    dsimp only
    rw [ih he m]
  | hflds kvs =>
    intro m
    rw [cleanFilter.eq_def] at he
    dsimp only at he
    rw [KeywordSearchEngine.matchesFilter.eq_def, FAISSVectorStore.matchesFilter.eq_def]
    dsimp only
    exact kwFields_eq m kvs he

/-- Witness for C3: a concrete clean filter on which both evaluators agree. -/
theorem C3_witness :
    cleanFilter (.flds [("a", .lit (.int 1))]) = true ∧
      KeywordSearchEngine.matchesFilter [("a", J.int 1)] (.flds [("a", .lit (.int 1))]) =
        FAISSVectorStore.matchesFilter [("a", J.int 1)] (.flds [("a", .lit (.int 1))]) :=
  ⟨rfl, C3_evaluators_agree_on_clean_filters (.flds [("a", .lit (.int 1))]) rfl [("a", J.int 1)]⟩

/-! ### The FAISS-backed store state and its operations -/

/-- Python dict assignment `d[k] = v`: replace in place (keeping the key's
original position) or append a new key. -/
def dictInsert {α β : Type} [BEq α] : List (α × β) → α → β → List (α × β)
  | [], k, v => [(k, v)]
  | (k0, v0) :: rest, k, v =>
    if k0 == k then (k0, v) :: rest else (k0, v0) :: dictInsert rest k v

/-- Python `del d[k]`: remove the entry with the given key. -/
def dictRemove {α β : Type} [BEq α] : List (α × β) → α → List (α × β)
  | [], _ => []
  | (k0, v0) :: rest, k =>
    if k0 == k then rest else (k0, v0) :: dictRemove rest k

/-- One record of the FAISS store's document table
(`self._documents[doc_id]`). -/
structure StoredDoc where
  text : String
  metadata : Metadata
  created_at : String

/-- The record `get_document` and `get_documents` return per document. -/
structure DocView where
  id : String
  text : String
  metadata : Metadata

/-- The in-memory state of `FAISSVectorStore`: the authoritative document
table, the bidirectional id↔slot mapping, the next free slot, and the size
of the opaque FAISS index (its vectors live inside the external library). -/
structure FAISSState where
  documents : List (String × StoredDoc)
  id_to_idx : List (String × Int)
  idx_to_id : List (Int × String)
  next_idx : Int
  ntotal : Nat

namespace FAISSVectorStore

/-- The `for i, doc_id in enumerate(ids)` loop body of `add_documents`:
assign the next fresh slot to each id and store its text/metadata. -/
def addLoop (now : String) : FAISSState → List (String × String × Metadata) → FAISSState
  | st, [] => st
  | st, (doc_id, text, meta) :: rest =>
    addLoop now
      { st with
        id_to_idx := dictInsert st.id_to_idx doc_id st.next_idx
        idx_to_id := dictInsert st.idx_to_id st.next_idx doc_id
        documents := dictInsert st.documents doc_id ⟨text, meta, now⟩
        next_idx := st.next_idx + 1 }
      rest

/-- `add_documents`: the normalized vectors are appended to the index (its
size grows by the number of embeddings), then each id gets a fresh slot.
Returns `len(ids)`. -/
def addDocuments (st : FAISSState) (ids texts : List String)
    (embeddings : List (List Rat)) (metadatas : List Metadata) (now : String) :
    Nat × FAISSState :=
  let st1 := { st with ntotal := st.ntotal + embeddings.length }
  (ids.length, addLoop now st1 (ids.zip (texts.zip metadatas)))

/-- `get_document`. -/
def getDocument (st : FAISSState) (doc_id : String) : Option DocView :=
  match st.documents.lookup doc_id with
  | none => none
  | some d => some ⟨doc_id, d.text, d.metadata⟩

/-- The list comprehension filtering the document table through
`_matches_filter` (an exception propagates). -/
def filterDocs (f : FExpr) : List (String × StoredDoc) → Except Unit (List (String × StoredDoc))
  | [] => .ok []
  | p :: rest =>
    match matchesFilter p.2.metadata f with
    | .error e => .error e
    | .ok true =>
      match filterDocs f rest with
      | .error e => .error e
      | .ok l => .ok (p :: l)
    | .ok false => filterDocs f rest

/-- `get_documents`: filter post-hoc, count the filtered list, slice the
page `[(page-1)*limit : page*limit]`. -/
def getDocuments (st : FAISSState) (page limit : Nat) (filters : Option FExpr) :
    Except Unit (List DocView × Nat) :=
  match (match filters with
         | some f => filterDocs f st.documents
         | none => .ok st.documents) with
  | .error e => .error e
  | .ok all =>
    let total := all.length
    let start := (page - 1) * limit
    let page_docs := (all.drop start).take limit
    .ok (page_docs.map (fun p => ⟨p.1, p.2.text, p.2.metadata⟩), total)

/-- `update_document`: partial update of text and metadata.  A supplied
embedding is not applied anywhere — FAISS has no in-place vector update, as
the source comment notes.  Returns false (state unchanged) when the id is
absent. -/
def updateDocument (st : FAISSState) (doc_id : String) (text : Option String)
    (embedding : Option (List Rat)) (metadata : Option Metadata) : Bool × FAISSState :=
  match st.documents.lookup doc_id with
  | none => (false, st)
  | some d =>
    let d1 :=
      match text with
      | some t => { d with text := t }
      | none => d
    let d2 :=
      match metadata with
      | some m2 => { d1 with metadata := m2 }
      | none => d1
    (true, { st with documents := dictInsert st.documents doc_id d2 })

/-- The loop of `delete_documents` over the requested ids. -/
def deleteLoop : FAISSState → List String → Nat → Nat × FAISSState
  | st, [], count => (count, st)
  | st, doc_id :: rest, count =>
    match st.documents.lookup doc_id with
    | none => deleteLoop st rest count
    | some _ =>
      let st1 := { st with documents := dictRemove st.documents doc_id }
      let st2 :=
        match st1.id_to_idx.lookup doc_id with
        | some idx =>
          { st1 with
            idx_to_id := dictRemove st1.idx_to_id idx
            id_to_idx := dictRemove st1.id_to_idx doc_id }
        | none => st1
      deleteLoop st2 rest (count + 1)

/-- `_rebuild_index`: a fresh empty index of the configured type; the
mapping is cleared and the slot counter reset.  Documents are kept but
their vectors are gone until re-added. -/
def rebuildIndex (st : FAISSState) : FAISSState :=
  { st with id_to_idx := [], idx_to_id := [], next_idx := 0, ntotal := 0 }

/-- `delete_documents`: delete each present id, and rebuild the index when
anything was deleted. -/
def deleteDocuments (st : FAISSState) (ids : List String) : Nat × FAISSState :=
  let r := deleteLoop st ids 0
  if r.1 > 0 then (r.1, rebuildIndex r.2) else r

/-- `delete_by_filter`: collect the matching ids, then delete them. -/
def deleteByFilter (st : FAISSState) (filters : FExpr) : Except Unit (Nat × FAISSState) :=
  match filterDocs filters st.documents with
  | .error e => .error e
  | .ok l => .ok (deleteDocuments st (l.map (·.1)))

/-- `clear`: drop everything and reinitialize an empty index. -/
def clear (_st : FAISSState) : FAISSState :=
  { documents := [], id_to_idx := [], idx_to_id := [], next_idx := 0, ntotal := 0 }

/-- `count`. -/
def count (st : FAISSState) : Nat := st.documents.length

/-- `get_all_texts`. -/
def getAllTexts (st : FAISSState) : List (String × String) :=
  st.documents.map fun p => (p.1, p.2.text)

/-- Conversion of an inner-product score to a `[0,1]` similarity:
`max(0.0, min(1.0, (score + 1.0) / 2.0))`. -/
def convScore (s : Rat) : Rat := max 0 (min 1 ((s + 1) / 2))

/-- One entry of the list `search` returns. -/
structure SearchResult where
  id : String
  text : String
  metadata : Metadata
  score : Rat

/-- `search_k = top_k * 5 if filters else top_k`, then
`search_k = min(search_k, self.index.ntotal)`. -/
def requestK (st : FAISSState) (top_k : Nat) (filters : Option FExpr) : Nat :=
  min (if filters.isSome then top_k * 5 else top_k) st.ntotal

/-- `min_score is not None and score < min_score`. -/
def belowMin (min_score : Option Rat) (score : Rat) : Bool :=
  match min_score with
  | some ms => decide (score < ms)
  | none => false

/-- `filters and not self._matches_filter(...)`: evaluate the filter when
one is given. -/
def applyFilter (filters : Option FExpr) (meta : Metadata) : Except Unit Bool :=
  match filters with
  | some f => matchesFilter meta f
  | none => .ok true

/-- The result-collection loop of `search` over the `(index, score)` pairs
the FAISS index returned: skip `-1` slots, unmapped slots and stale ids,
clamp-convert the score, apply `min_score` and the filter, round the
reported score to 4 decimals, and stop once `top_k` results are
collected. -/
def searchLoop (st : FAISSState) (filters : Option FExpr) (min_score : Option Rat)
    (top_k : Nat) : List (Int × Rat) → List SearchResult → Except Unit (List SearchResult)
  | [], acc => .ok acc
  | (idx, s) :: rest, acc =>
    if idx == -1 then searchLoop st filters min_score top_k rest acc
    else
      match st.idx_to_id.lookup idx with
      | none => searchLoop st filters min_score top_k rest acc
      | some doc_id =>
        match st.documents.lookup doc_id with
        | none => searchLoop st filters min_score top_k rest acc
        | some doc =>
          let score := convScore s
          if belowMin min_score score then searchLoop st filters min_score top_k rest acc
          else
            match applyFilter filters doc.metadata with
            | .error e => .error e
            | .ok false => searchLoop st filters min_score top_k rest acc
            | .ok true =>
              let acc1 := acc ++ [⟨doc_id, doc.text, doc.metadata, round4 score⟩]
              if top_k ≤ acc1.length then .ok acc1
              else searchLoop st filters min_score top_k rest acc1

/-- `search`: return `[]` on an empty index, otherwise request `requestK`
candidates from the opaque index (`idxSearch` models `self.index.search` on
the L2-normalized query vector, per the spec's §1 opaque-index contract)
and post-process them. -/
def search (st : FAISSState) (idxSearch : Nat → List (Int × Rat)) (top_k : Nat)
    (filters : Option FExpr) (min_score : Option Rat) : Except Unit (List SearchResult) :=
  if st.ntotal == 0 then .ok []
  else searchLoop st filters min_score top_k (idxSearch (requestK st top_k filters)) []

end FAISSVectorStore

/-! ### The Chroma-backed store adapter -/

mutual
/-- Python `repr` of a value as printed inside a list (strings quoted with
apostrophes, written via their character code). -/
def pyRepr : J → String
  | .null => "None"
  | .bool b => if b then "True" else "False"
  | .int n => toString n
  | .str s => String.singleton (Char.ofNat 39) ++ s ++ String.singleton (Char.ofNat 39)
  | .list xs => "[" ++ pyReprInner xs ++ "]"

/-- The comma-separated element list inside a printed Python list. -/
def pyReprInner : List J → String
  | [] => ""
  | [x] => pyRepr x
  | x :: y :: rest => pyRepr x ++ ", " ++ pyReprInner (y :: rest)
end

/-- Python `str(value)` for metadata values. -/
def pyStr : J → String
  | .null => "None"
  | .bool b => if b then "True" else "False"
  | .int n => toString n
  | .str s => s
  | .list xs => "[" ++ pyReprInner xs ++ "]"

/-- The metadata sanitization in the Chroma adapter's
`add_documents`/`update_document`: list values are joined into one
comma-separated string of `str(item)`s, null values are dropped, scalars
pass through. -/
def sanitizeMetadata : Metadata → Metadata
  | [] => []
  | (k, v) :: rest =>
    match v with
    | .list xs => (k, .str (String.intercalate "," (xs.map pyStr))) :: sanitizeMetadata rest
    | .null => sanitizeMetadata rest
    | v' => (k, v') :: sanitizeMetadata rest

/-- One record of the external Chroma collection. -/
structure ChromaDoc where
  text : String
  embedding : List Rat
  metadata : Metadata

/-- Modelled from the spec (§4.4, §6): the external "always-persistent
collection abstraction" the Chroma adapter delegates to, as an ordered list
of id-addressed records.  The collection itself lives in the external
`chromadb` library; only the adapter code is in this repository. -/
structure ChromaState where
  entries : List (String × ChromaDoc)

namespace ChromaVectorStore

/-- Modelled from the spec: `collection.count()` — the number of stored
records. -/
def count (st : ChromaState) : Nat := st.entries.length

/-- Modelled from the spec: `collection.get(where=..., limit=..., offset=...)`
— the records accepted by the backend's native evaluation of the translated
where-clause (opaque to this repository, modelled as the predicate
`whereEval`), sliced by offset and limit in storage order. -/
def collectionGet (st : ChromaState) (whereEval : Option (Metadata → Bool))
    (limit offsetN : Nat) : List (String × ChromaDoc) :=
  let selected :=
    match whereEval with
    | some w => st.entries.filter (fun (p : String × ChromaDoc) => w p.2.metadata)
    | none => st.entries
  (selected.drop offsetN).take limit

/-- `ChromaVectorStore.get_document` via `collection.get(ids=[doc_id])`. -/
def getDocument (st : ChromaState) (doc_id : String) : Option DocView :=
  match st.entries.lookup doc_id with
  | none => none
  | some d => some ⟨doc_id, d.text, d.metadata⟩

/-- `ChromaVectorStore.get_documents`: `total = self.collection.count()`
(computed before and independent of the filter), then one page of
`collection.get` with the translated where-clause. -/
def getDocuments (st : ChromaState) (page limit : Nat)
    (whereEval : Option (Metadata → Bool)) : List DocView × Nat :=
  let total := count st
  let offsetN := (page - 1) * limit
  let result := collectionGet st whereEval limit offsetN
  (result.map fun p => ⟨p.1, p.2.text, p.2.metadata⟩, total)

/-- `ChromaVectorStore.update_document`: check existence via
`get_document`, then `collection.update` with exactly the supplied fields
(metadata sanitized first); absent id leaves the collection unchanged and
returns false. -/
def updateDocument (st : ChromaState) (doc_id : String) (text : Option String)
    (embedding : Option (List Rat)) (metadata : Option Metadata) : Bool × ChromaState :=
  match st.entries.lookup doc_id with
  | none => (false, st)
  | some d =>
    let d1 :=
      match text with
      | some t => { d with text := t }
      | none => d
    let d2 :=
      match embedding with
      | some e => { d1 with embedding := e }
      | none => d1
    let d3 :=
      match metadata with
      | some m => { d2 with metadata := sanitizeMetadata m }
      | none => d2
    (true, ⟨dictInsert st.entries doc_id d3⟩)

end ChromaVectorStore

/-! ### Association-list (Python dict) lemmas -/

theorem lookup_some_mem_keys {α β : Type} [BEq α] [LawfulBEq α]
    (l : List (α × β)) (k : α) (v : β) (h : l.lookup k = some v) : k ∈ l.map Prod.fst := by
  induction l with
  | nil => simp [List.lookup] at h
  | cons p rest ih =>
    obtain ⟨k0, v0⟩ := p
    rw [List.lookup] at h
    cases hk : k == k0 with
    | true =>
      simp only [List.map_cons, List.mem_cons]
      left
      exact eq_of_beq hk
    | false =>
      rw [hk] at h
      simp only [List.map_cons, List.mem_cons]
      right
      exact ih h

theorem lookup_dictInsert_self {α β : Type} [BEq α] [LawfulBEq α]
    (l : List (α × β)) (k : α) (v : β) : (dictInsert l k v).lookup k = some v := by
  induction l with
  | nil => simp [dictInsert, List.lookup]
  | cons p rest ih =>
    obtain ⟨k0, v0⟩ := p
    rw [dictInsert]
    by_cases h : k0 = k
    · subst h
      simp [List.lookup]
    · rw [if_neg (by simp [h])]
      rw [List.lookup]
      have hf : (k == k0) = false := by simp [Ne.symm h]
      rw [hf]
      exact ih

theorem lookup_dictInsert_ne {α β : Type} [BEq α] [LawfulBEq α]
    (l : List (α × β)) (k k' : α) (v : β) (h : k' ≠ k) :
    (dictInsert l k v).lookup k' = l.lookup k' := by
  induction l with
  | nil =>
    have hf : (k' == k) = false := by simp [h]
    simp [dictInsert, List.lookup, hf]
  | cons p rest ih =>
    obtain ⟨k0, v0⟩ := p
    rw [dictInsert]
    by_cases h0 : k0 = k
    · subst h0
      have hf : (k' == k0) = false := by simp [h]
      simp [List.lookup, hf]
    · rw [if_neg (by simp [h0])]
      rw [List.lookup, List.lookup]
      cases hk : k' == k0 with
      | true => rfl
      | false => exact ih

theorem lookup_dictRemove_ne {α β : Type} [BEq α] [LawfulBEq α]
    (l : List (α × β)) (k k' : α) (h : k' ≠ k) :
    (dictRemove l k).lookup k' = l.lookup k' := by
  induction l with
  | nil => simp [dictRemove]
  | cons p rest ih =>
    obtain ⟨k0, v0⟩ := p
    rw [dictRemove]
    by_cases h0 : k0 = k
    · subst h0
      rw [if_pos (by simp)]
      rw [List.lookup]
      have hf : (k' == k0) = false := by simp [h]
      rw [hf]
    · rw [if_neg (by simp [h0])]
      rw [List.lookup, List.lookup]
      cases hk : k' == k0 with
      | true => rfl
      | false => exact ih

theorem lookup_dictRemove_self {α β : Type} [BEq α] [LawfulBEq α]
    (l : List (α × β)) (k : α) (h : (l.map Prod.fst).Nodup) :
    (dictRemove l k).lookup k = none := by
  induction l with
  | nil => simp [dictRemove]
  | cons p rest ih =>
    obtain ⟨k0, v0⟩ := p
    simp only [List.map_cons, List.nodup_cons] at h
    rw [dictRemove]
    by_cases h0 : k0 = k
    · subst h0
      rw [if_pos (by simp)]
      cases hl : rest.lookup k0 with
      | none => rfl
      | some w =>
        exfalso
        exact h.1 (lookup_some_mem_keys rest k0 w hl)
    · rw [if_neg (by simp [h0])]
      rw [List.lookup]
      have hf : (k == k0) = false := by simp [Ne.symm h0]
      rw [hf]
      exact ih h.2

theorem keys_dictInsert_mem {α β : Type} [BEq α] [LawfulBEq α]
    (l : List (α × β)) (k k' : α) (v : β)
    (h : k' ∈ (dictInsert l k v).map Prod.fst) : k' ∈ l.map Prod.fst ∨ k' = k := by
  induction l with
  | nil =>
    simp [dictInsert] at h
    right
    exact h
  | cons p rest ih =>
    obtain ⟨k0, v0⟩ := p
    rw [dictInsert] at h
    by_cases h0 : k0 = k
    · subst h0
      rw [if_pos (by simp)] at h
      simp only [List.map_cons, List.mem_cons] at h
      rcases h with h | h
      · left; simp [h]
      · left; simp only [List.map_cons, List.mem_cons]; right; exact h
    · rw [if_neg (by simp [h0])] at h
      simp only [List.map_cons, List.mem_cons] at h
      rcases h with h | h
      · left; simp [h]
      · rcases ih h with h1 | h1
        · left; simp only [List.map_cons, List.mem_cons]; right; exact h1
        · right; exact h1

theorem keys_dictRemove_mem {α β : Type} [BEq α] [LawfulBEq α]
    (l : List (α × β)) (k k' : α)
    (h : k' ∈ (dictRemove l k).map Prod.fst) : k' ∈ l.map Prod.fst := by
  induction l with
  | nil => simp [dictRemove] at h
  | cons p rest ih =>
    obtain ⟨k0, v0⟩ := p
    rw [dictRemove] at h
    by_cases h0 : k0 = k
    · subst h0
      rw [if_pos (by simp)] at h
      simp only [List.map_cons, List.mem_cons]
      right
      exact h
    · rw [if_neg (by simp [h0])] at h
      simp only [List.map_cons, List.mem_cons] at h ⊢
      rcases h with h | h
      · left; exact h
      · right; exact ih h

theorem keys_dictInsert_nodup {α β : Type} [BEq α] [LawfulBEq α]
    (l : List (α × β)) (k : α) (v : β) (h : (l.map Prod.fst).Nodup) :
    ((dictInsert l k v).map Prod.fst).Nodup := by
  induction l with
  | nil => simp [dictInsert]
  | cons p rest ih =>
    obtain ⟨k0, v0⟩ := p
    simp only [List.map_cons, List.nodup_cons] at h
    rw [dictInsert]
    by_cases h0 : k0 = k
    · subst h0
      rw [if_pos (by simp)]
      simp only [List.map_cons, List.nodup_cons]
      exact h
    · rw [if_neg (by simp [h0])]
      simp only [List.map_cons, List.nodup_cons]
      refine ⟨?_, ih h.2⟩
      intro hmem
      rcases keys_dictInsert_mem rest k k0 v hmem with h1 | h1
      · exact h.1 h1
      · exact h0 h1

theorem keys_dictRemove_nodup {α β : Type} [BEq α] [LawfulBEq α]
    (l : List (α × β)) (k : α) (h : (l.map Prod.fst).Nodup) :
    ((dictRemove l k).map Prod.fst).Nodup := by
  induction l with
  | nil => simp [dictRemove]
  | cons p rest ih =>
    obtain ⟨k0, v0⟩ := p
    simp only [List.map_cons, List.nodup_cons] at h
    rw [dictRemove]
    by_cases h0 : k0 = k
    · subst h0
      rw [if_pos (by simp)]
      exact h.2
    · rw [if_neg (by simp [h0])]
      simp only [List.map_cons, List.nodup_cons]
      refine ⟨?_, ih h.2⟩
      intro hmem
      exact h.1 (keys_dictRemove_mem rest k k0 hmem)

theorem lookup_dictRemove_none {α β : Type} [BEq α] [LawfulBEq α]
    (l : List (α × β)) (k k' : α) (h : l.lookup k' = none) :
    (dictRemove l k).lookup k' = none := by
  induction l with
  | nil => simp [dictRemove]
  | cons p rest ih =>
    obtain ⟨k0, v0⟩ := p
    rw [List.lookup] at h
    cases hk : k' == k0 with
    | true => rw [hk] at h; cases h
    | false =>
      rw [hk] at h
      rw [dictRemove]
      by_cases h0 : k0 = k
      · subst h0
        rw [if_pos (by simp)]
        exact h
      · rw [if_neg (by simp [h0])]
        rw [List.lookup, hk]
        exact ih h



/-! ### Store invariants and operations -/

/-- Well-formedness of a FAISS store state: dict keys are unique (as in
Python dicts), every slot assignment round-trips through `idx_to_id`, and
every assigned slot is below `next_idx`. -/
def Inv (st : FAISSState) : Prop :=
  (st.documents.map Prod.fst).Nodup ∧
  (st.id_to_idx.map Prod.fst).Nodup ∧
  (st.idx_to_id.map Prod.fst).Nodup ∧
  (∀ d s, st.id_to_idx.lookup d = some s → st.idx_to_id.lookup s = some d) ∧
  (∀ d s, st.id_to_idx.lookup d = some s → s < st.next_idx)

/-- The id↔slot invariant exactly as claim C5 states it: every live
document in the table has a slot whose `idx_to_id` entry points back at
it. -/
def claimedMappingInv (st : FAISSState) : Prop :=
  ∀ p ∈ st.documents, ∃ s, st.id_to_idx.lookup p.1 = some s ∧ st.idx_to_id.lookup s = some p.1

/-- One public operation of the FAISS store (search carries the opaque
index oracle; it reads but never modifies the state). -/
inductive StoreOp where
  | add (ids texts : List String) (embeddings : List (List Rat)) (metadatas : List Metadata) (now : String)
  | update (doc_id : String) (text : Option String) (embedding : Option (List Rat)) (metadata : Option Metadata)
  | deleteIds (ids : List String)
  | deleteFilter (f : FExpr)
  | doClear
  | doSearch (idxSearch : Nat → List (Int × Rat)) (top_k : Nat) (filters : Option FExpr) (min_score : Option Rat)

/-- Apply one operation to the store state (`.error` models an uncaught
exception raised during filter evaluation, producing no new state). -/
def applyOp (st : FAISSState) : StoreOp → Except Unit FAISSState
  | .add ids texts embeddings metadatas now =>
    .ok (FAISSVectorStore.addDocuments st ids texts embeddings metadatas now).2
  | .update doc_id text embedding metadata =>
    .ok (FAISSVectorStore.updateDocument st doc_id text embedding metadata).2
  | .deleteIds ids => .ok (FAISSVectorStore.deleteDocuments st ids).2
  | .deleteFilter f =>
    match FAISSVectorStore.deleteByFilter st f with
    | .error e => .error e
    | .ok r => .ok r.2
  | .doClear => .ok (FAISSVectorStore.clear st)
  | .doSearch idxSearch top_k filters min_score =>
    match FAISSVectorStore.search st idxSearch top_k filters min_score with
    | .error e => .error e
    | .ok _ => .ok st

theorem Inv_addLoop (now : String) (l : List (String × String × Metadata)) :
    ∀ st : FAISSState, Inv st → Inv (FAISSVectorStore.addLoop now st l) := by
  induction l with
  | nil => intro st h; rw [FAISSVectorStore.addLoop]; exact h
  | cons p rest ih =>
    intro st h
    obtain ⟨doc_id, text, meta⟩ := p
    rw [FAISSVectorStore.addLoop]
    apply ih
    obtain ⟨hd, hi, hx, hfwd, hbnd⟩ := h
    refine ⟨keys_dictInsert_nodup _ _ _ hd, keys_dictInsert_nodup _ _ _ hi,
      keys_dictInsert_nodup _ _ _ hx, ?_, ?_⟩
    · intro d s hds
      by_cases hdd : d = doc_id
      · subst hdd
        rw [lookup_dictInsert_self] at hds
        injection hds with hds
        subst hds
        exact lookup_dictInsert_self _ _ _
      · rw [lookup_dictInsert_ne _ _ _ _ hdd] at hds
        have h1 := hfwd d s hds
        have h2 := hbnd d s hds
        rw [lookup_dictInsert_ne _ _ _ _ (ne_of_lt h2)]
        exact h1
    · intro d s hds
      by_cases hdd : d = doc_id
      · subst hdd
        rw [lookup_dictInsert_self] at hds
        injection hds with hds
        subst hds
        exact lt_add_one _
      · rw [lookup_dictInsert_ne _ _ _ _ hdd] at hds
        have := hbnd d s hds
        exact lt_trans this (lt_add_one _)

theorem Inv_deleteLoop (ids : List String) :
    ∀ st c, Inv st → Inv (FAISSVectorStore.deleteLoop st ids c).2 := by
  induction ids with
  | nil => intro st c h; rw [FAISSVectorStore.deleteLoop]; exact h
  | cons doc_id rest ih =>
    intro st c h
    rw [FAISSVectorStore.deleteLoop]
    cases hdl : st.documents.lookup doc_id with
    | none => exact ih st c h
    | some d =>
      dsimp only
      obtain ⟨hd, hi, hx, hfwd, hbnd⟩ := h
      cases hii : st.id_to_idx.lookup doc_id with
      | none =>
        apply ih
        exact ⟨keys_dictRemove_nodup _ _ hd, hi, hx, hfwd, hbnd⟩
      | some idx =>
        apply ih
        refine ⟨keys_dictRemove_nodup _ _ hd, keys_dictRemove_nodup _ _ hi,
          keys_dictRemove_nodup _ _ hx, ?_, ?_⟩
        · intro d' s hds
          by_cases hdd : d' = doc_id
          · subst hdd
            rw [lookup_dictRemove_self _ _ hi] at hds
            cases hds
          · rw [lookup_dictRemove_ne _ _ _ hdd] at hds
            have h1 := hfwd d' s hds
            have hxi := hfwd doc_id idx hii
            have hs : s ≠ idx := by
              intro he
              subst he
              rw [h1] at hxi
              injection hxi with hxi
              exact hdd hxi
            rw [lookup_dictRemove_ne _ _ _ hs]
            exact h1
        · intro d' s hds
          by_cases hdd : d' = doc_id
          · subst hdd
            rw [lookup_dictRemove_self _ _ hi] at hds
            cases hds
          · rw [lookup_dictRemove_ne _ _ _ hdd] at hds
            exact hbnd d' s hds

theorem Inv_rebuildIndex (st : FAISSState) (h : Inv st) :
    Inv (FAISSVectorStore.rebuildIndex st) := by
  obtain ⟨hd, -, -, -, -⟩ := h
  refine ⟨hd, List.nodup_nil, List.nodup_nil, ?_, ?_⟩
  · intro d s hds
    simp [FAISSVectorStore.rebuildIndex, List.lookup] at hds
  · intro d s hds
    simp [FAISSVectorStore.rebuildIndex, List.lookup] at hds

theorem Inv_deleteDocuments (st : FAISSState) (ids : List String) (h : Inv st) :
    Inv (FAISSVectorStore.deleteDocuments st ids).2 := by
  rw [FAISSVectorStore.deleteDocuments]
  split
  · exact Inv_rebuildIndex _ (Inv_deleteLoop ids st 0 h)
  · exact Inv_deleteLoop ids st 0 h

theorem Inv_updateDocument (st : FAISSState) (doc_id : String) (text : Option String)
    (embedding : Option (List Rat)) (metadata : Option Metadata) (h : Inv st) :
    Inv (FAISSVectorStore.updateDocument st doc_id text embedding metadata).2 := by
  rw [FAISSVectorStore.updateDocument]
  cases hdl : st.documents.lookup doc_id with
  | none => exact h
  | some d =>
    dsimp only
    obtain ⟨hd, hi, hx, hfwd, hbnd⟩ := h
    exact ⟨keys_dictInsert_nodup _ _ _ hd, hi, hx, hfwd, hbnd⟩

theorem Inv_clear (st : FAISSState) : Inv (FAISSVectorStore.clear st) := by
  refine ⟨by simp [FAISSVectorStore.clear], by simp [FAISSVectorStore.clear],
    by simp [FAISSVectorStore.clear], ?_, ?_⟩ <;>
    (intro d s hds; simp [FAISSVectorStore.clear, List.lookup] at hds)

theorem deleteLoop_lookup_none (ids : List String) :
    ∀ st c d, st.documents.lookup d = none →
      (FAISSVectorStore.deleteLoop st ids c).2.documents.lookup d = none := by
  induction ids with
  | nil => intro st c d h; rw [FAISSVectorStore.deleteLoop]; exact h
  | cons doc_id rest ih =>
    intro st c d h
    rw [FAISSVectorStore.deleteLoop]
    cases hdl : st.documents.lookup doc_id with
    | none => exact ih st c d h
    | some dd =>
      dsimp only
      cases hii : st.id_to_idx.lookup doc_id with
      | none => exact ih _ _ d (lookup_dictRemove_none _ _ _ h)
      | some idx => exact ih _ _ d (lookup_dictRemove_none _ _ _ h)

theorem deleteLoop_deleted (ids : List String) :
    ∀ st c d, (st.documents.map Prod.fst).Nodup → d ∈ ids →
      (FAISSVectorStore.deleteLoop st ids c).2.documents.lookup d = none := by
  induction ids with
  | nil => intro st c d _ hmem; cases hmem
  | cons doc_id rest ih =>
    intro st c d hnd hmem
    rw [FAISSVectorStore.deleteLoop]
    cases hdl : st.documents.lookup doc_id with
    | none =>
      rcases List.mem_cons.mp hmem with he | hm
      · subst he; exact deleteLoop_lookup_none rest st c d hdl
      · exact ih st c d hnd hm
    | some dd =>
      dsimp only
      cases hii : st.id_to_idx.lookup doc_id with
      | none =>
        rcases List.mem_cons.mp hmem with he | hm
        · subst he
          exact deleteLoop_lookup_none rest _ _ d (lookup_dictRemove_self _ _ hnd)
        · exact ih _ _ d (keys_dictRemove_nodup _ _ hnd) hm
      | some idx =>
        rcases List.mem_cons.mp hmem with he | hm
        · subst he
          exact deleteLoop_lookup_none rest _ _ d (lookup_dictRemove_self _ _ hnd)
        · exact ih _ _ d (keys_dictRemove_nodup _ _ hnd) hm

theorem deleteLoop_count_le (ids : List String) :
    ∀ st c, c ≤ (FAISSVectorStore.deleteLoop st ids c).1 := by
  induction ids with
  | nil => intro st c; rw [FAISSVectorStore.deleteLoop]
  | cons doc_id rest ih =>
    intro st c
    rw [FAISSVectorStore.deleteLoop]
    cases hdl : st.documents.lookup doc_id with
    | none => exact ih st c
    | some dd =>
      dsimp only
      cases hii : st.id_to_idx.lookup doc_id with
      | none => exact le_trans (Nat.le_succ c) (ih _ _)
      | some idx => exact le_trans (Nat.le_succ c) (ih _ _)

theorem deleteLoop_count_eq_state (ids : List String) :
    ∀ st c, (FAISSVectorStore.deleteLoop st ids c).1 = c →
      (FAISSVectorStore.deleteLoop st ids c).2 = st ∧ ∀ d ∈ ids, st.documents.lookup d = none := by
  induction ids with
  | nil =>
    intro st c _
    constructor
    · rw [FAISSVectorStore.deleteLoop]
    · intro d hd; cases hd
  | cons doc_id rest ih =>
    intro st c hc
    rw [FAISSVectorStore.deleteLoop] at hc ⊢
    cases hdl : st.documents.lookup doc_id with
    | none =>
      rw [hdl] at hc
      obtain ⟨h1, h2⟩ := ih st c hc
      refine ⟨h1, ?_⟩
      intro d hd
      rcases List.mem_cons.mp hd with he | hm
      · subst he; exact hdl
      · exact h2 d hm
    | some dd =>
      rw [hdl] at hc
      dsimp only at hc
      exfalso
      have key : ∀ st2 : FAISSState, (FAISSVectorStore.deleteLoop st2 rest (c + 1)).1 = c → False := by
        intro st2 h2
        have := deleteLoop_count_le rest st2 (c + 1)
        omega
      exact key _ hc

theorem searchLoop_mem_doc (st : FAISSState) (filters : Option FExpr) (min_score : Option Rat)
    (top_k : Nat) (cands : List (Int × Rat)) :
    ∀ acc rs, FAISSVectorStore.searchLoop st filters min_score top_k cands acc = .ok rs →
      ∀ r ∈ rs, r ∈ acc ∨ (st.documents.lookup r.id).isSome = true := by
  induction cands with
  | nil =>
    intro acc rs h r hr
    rw [FAISSVectorStore.searchLoop] at h
    injection h with h
    subst h
    exact Or.inl hr
  | cons p rest ih =>
    intro acc rs h r hr
    obtain ⟨idx, s⟩ := p
    rw [FAISSVectorStore.searchLoop] at h
    by_cases hneg : (idx == -1) = true
    · rw [if_pos hneg] at h
      exact ih acc rs h r hr
    · rw [if_neg hneg] at h
      cases hx : st.idx_to_id.lookup idx with
      | none =>
        rw [hx] at h
        exact ih acc rs h r hr
      | some doc_id =>
        rw [hx] at h
        dsimp only at h
        cases hdoc : st.documents.lookup doc_id with
        | none =>
          rw [hdoc] at h
          exact ih acc rs h r hr
        | some doc =>
          rw [hdoc] at h
          dsimp only at h
          by_cases hbm : FAISSVectorStore.belowMin min_score (FAISSVectorStore.convScore s) = true
          · rw [if_pos hbm] at h
            exact ih acc rs h r hr
          · rw [if_neg hbm] at h
            cases haf : FAISSVectorStore.applyFilter filters doc.metadata with
            | error e => rw [haf] at h; cases h
            | ok keep =>
              rw [haf] at h
              cases keep with
              | false => exact ih acc rs h r hr
              | true =>
                dsimp only at h
                split at h
                · injection h with h
                  subst h
                  rcases List.mem_append.mp hr with h1 | h1
                  · exact Or.inl h1
                  · right
                    rw [List.mem_singleton] at h1
                    subst h1
                    rw [hdoc]
                    rfl
                · have h2 := ih _ rs h r hr
                  rcases h2 with h1 | h1
                  · rcases List.mem_append.mp h1 with h2 | h2
                    · exact Or.inl h2
                    · right
                      rw [List.mem_singleton] at h2
                      subst h2
                      rw [hdoc]
                      rfl
                  · exact Or.inr h1

/-! ### Claim C5 -/

/-- The empty store state. -/
def c5Base : FAISSState := ⟨[], [], [], 0, 0⟩

/-- Two documents added to the empty store. -/
def c5AfterAdd : FAISSState :=
  (FAISSVectorStore.addDocuments c5Base ["a", "b"] ["ta", "tb"] [[1], [0]] [[], []] "t").2

/-- The store after deleting `"a"` from `c5AfterAdd`. -/
def c5AfterDelete : FAISSState := (FAISSVectorStore.deleteDocuments c5AfterAdd ["a"]).2

/-- C5 counterexample: after adding documents "a" and "b" and deleting "a",
the deletion-triggered rebuild clears the whole id↔slot mapping, so the
live document "b" has no slot at all — `slot_to_id[id_to_slot["b"]]` is
undefined, falsifying the claimed invariant on this reachable state. -/
theorem C5_counterexample : ¬ claimedMappingInv c5AfterDelete := by
  intro h
  obtain ⟨s, hs, -⟩ := h ("b", ⟨"tb", [], "t"⟩) (List.Mem.head _)
  rw [show c5AfterDelete.id_to_idx = [] from rfl] at hs
  simp [List.lookup] at hs

/-- C5 (amended): after every operation (add, update, delete by id, delete
by filter, clear, search) the store keeps the weaker mapping invariant that
actually holds: dict keys stay unique, `slot_to_id[id_to_slot[d]] == d` for
every document `d` that has a slot, and every assigned slot is below
`next_slot` (so slots are never reused until a deletion-triggered rebuild
clears all slot assignments and resets `next_slot` to 0; live documents
keep no slots after such a rebuild until re-added). -/
theorem C5_slot_mapping_invariant_preserved (st st' : FAISSState) (op : StoreOp)
    (hinv : Inv st) (hok : applyOp st op = .ok st') : Inv st' := by
  cases op with
  | add ids texts embeddings metadatas now =>
    rw [applyOp] at hok
    injection hok with hok
    subst hok
    rw [FAISSVectorStore.addDocuments]
    exact Inv_addLoop now _ _ hinv
  | update doc_id text embedding metadata =>
    rw [applyOp] at hok
    injection hok with hok
    subst hok
    exact Inv_updateDocument st doc_id text embedding metadata hinv
  | deleteIds ids =>
    rw [applyOp] at hok
    injection hok with hok
    subst hok
    exact Inv_deleteDocuments st ids hinv
  | deleteFilter f =>
    rw [applyOp] at hok
    cases hdf : FAISSVectorStore.deleteByFilter st f with
    | error e => rw [hdf] at hok; cases hok
    | ok r =>
      rw [hdf] at hok
      injection hok with hok
      subst hok
      rw [FAISSVectorStore.deleteByFilter] at hdf
      cases hfd : FAISSVectorStore.filterDocs f st.documents with
      | error e => rw [hfd] at hdf; cases hdf
      | ok l =>
        rw [hfd] at hdf
        injection hdf with hdf
        rw [← hdf]
        exact Inv_deleteDocuments st (l.map (·.1)) hinv
  | doClear =>
    rw [applyOp] at hok
    injection hok with hok
    subst hok
    exact Inv_clear st
  | doSearch idxSearch top_k filters min_score =>
    rw [applyOp] at hok
    cases hs : FAISSVectorStore.search st idxSearch top_k filters min_score with
    | error e => rw [hs] at hok; cases hok
    | ok rs =>
      rw [hs] at hok
      injection hok with hok
      subst hok
      exact hinv

/-- Witness for C5: one add on the well-formed empty store. -/
theorem C5_witness :
    Inv ((FAISSVectorStore.addDocuments c5Base ["a"] ["ta"] [[1]] [[]] "t").2) := by
  refine C5_slot_mapping_invariant_preserved c5Base _ (.add ["a"] ["ta"] [[1]] [[]] "t") ?_ rfl
  refine ⟨by simp [c5Base], by simp [c5Base], by simp [c5Base], ?_, ?_⟩ <;>
    (intro d s hds; simp [c5Base, List.lookup] at hds)

/-! ### Claim C6 -/

/-- C6: deletion consistency for the FAISS store.  After `delete_documents`
removes an id (from any well-formed state: unique keys, and no slot entry
for an id absent from the document table), `get_document` returns none, the
id has no `id_to_idx` entry, and no search over the resulting state — with
any index oracle, `top_k`, filter and `min_score` — ever returns that id. -/
theorem C6_deletion_consistency (st : FAISSState) (ids : List String) (doc_id : String)
    (hnd : (st.documents.map Prod.fst).Nodup)
    (hsub : ∀ d s, st.id_to_idx.lookup d = some s → (st.documents.lookup d).isSome = true)
    (hmem : doc_id ∈ ids) :
    FAISSVectorStore.getDocument (FAISSVectorStore.deleteDocuments st ids).2 doc_id = none ∧
      (FAISSVectorStore.deleteDocuments st ids).2.id_to_idx.lookup doc_id = none ∧
      (∀ idxSearch top_k filters min_score rs,
        FAISSVectorStore.search (FAISSVectorStore.deleteDocuments st ids).2 idxSearch top_k
            filters min_score = .ok rs →
          ∀ r ∈ rs, r.id ≠ doc_id) := by
  have hdoc : (FAISSVectorStore.deleteDocuments st ids).2.documents.lookup doc_id = none := by
    rw [FAISSVectorStore.deleteDocuments]
    split
    · exact deleteLoop_deleted ids st 0 doc_id hnd hmem
    · exact deleteLoop_deleted ids st 0 doc_id hnd hmem
  refine ⟨?_, ?_, ?_⟩
  · rw [FAISSVectorStore.getDocument, hdoc]
  · rw [FAISSVectorStore.deleteDocuments]
    split
    · rfl
    · rename_i hcount
      have h0 : (FAISSVectorStore.deleteLoop st ids 0).1 = 0 := by omega
      obtain ⟨hst, habs⟩ := deleteLoop_count_eq_state ids st 0 h0
      rw [hst]
      have hnone := habs doc_id hmem
      cases hl : st.id_to_idx.lookup doc_id with
      | none => rfl
      | some s =>
        have := hsub doc_id s hl
        rw [hnone] at this
        cases this
  · intro idxSearch top_k filters min_score rs hs r hr hrid
    rw [FAISSVectorStore.search] at hs
    split at hs
    · injection hs with hs
      subst hs
      cases hr
    · have h2 := searchLoop_mem_doc _ filters min_score top_k _ [] rs hs r hr
      rcases h2 with h1 | h1
      · cases h1
      · rw [hrid, hdoc] at h1
        cases h1

/-- Witness for C6: deleting "a" from the concrete two-document store. -/
theorem C6_witness :
    FAISSVectorStore.getDocument (FAISSVectorStore.deleteDocuments c5AfterAdd ["a"]).2 "a" = none ∧
      (FAISSVectorStore.deleteDocuments c5AfterAdd ["a"]).2.id_to_idx.lookup "a" = none ∧
      (∀ idxSearch top_k filters min_score rs,
        FAISSVectorStore.search (FAISSVectorStore.deleteDocuments c5AfterAdd ["a"]).2 idxSearch
            top_k filters min_score = .ok rs →
          ∀ r ∈ rs, r.id ≠ "a") :=
  C6_deletion_consistency c5AfterAdd ["a"] "a" (by decide)
    (by
      intro d s h
      by_cases ha : d = "a"
      · subst ha; rfl
      · by_cases hb : d = "b"
        · subst hb; rfl
        · rw [show c5AfterAdd.id_to_idx = [("a", (0 : Int)), ("b", 1)] from rfl] at h
          have ha2 : (d == "a") = false := by simp [ha]
          have hb2 : (d == "b") = false := by simp [hb]
          simp [List.lookup, ha2, hb2] at h)
    (by decide)


/-- The documents of the FAISS table whose metadata the evaluator accepts. -/
def matchedDocs (f : FExpr) (l : List (String × StoredDoc)) : List (String × StoredDoc) :=
  l.filter fun p =>
    match FAISSVectorStore.matchesFilter p.2.metadata f with
    | .ok true => true
    | _ => false

theorem filterDocs_ok (f : FExpr) (l : List (String × StoredDoc)) :
    ∀ r, FAISSVectorStore.filterDocs f l = .ok r → r = matchedDocs f l := by
  induction l with
  | nil =>
    intro r h
    rw [FAISSVectorStore.filterDocs] at h
    injection h with h
    subst h
    rfl
  | cons p rest ih =>
    intro r h
    rw [FAISSVectorStore.filterDocs] at h
    cases hm : FAISSVectorStore.matchesFilter p.2.metadata f with
    | error e => rw [hm] at h; cases h
    | ok b =>
      rw [hm] at h
      cases b with
      | true =>
        cases hf : FAISSVectorStore.filterDocs f rest with
        | error e => rw [hf] at h; cases h
        | ok l2 =>
          rw [hf] at h
          injection h with h
          subst h
          rw [matchedDocs, List.filter_cons]
          rw [show (match FAISSVectorStore.matchesFilter p.2.metadata f with
            | .ok true => true
            | _ => false) = true from by rw [hm]]
          rw [if_pos rfl]
          rw [ih l2 hf]
          rfl
      | false =>
        rw [matchedDocs, List.filter_cons]
        rw [show (match FAISSVectorStore.matchesFilter p.2.metadata f with
          | .ok true => true
          | _ => false) = false from by rw [hm]]
        rw [if_neg (by simp)]
        exact ih r h

/-! ### Claim C7 -/

/-- C7 (amended): the FAISS backend paginates post-filter — on every
raise-free evaluation the reported total is the number of stored documents
whose metadata matches the filter and the page is the slice
`[(page-1)*limit : page*limit]` of that filtered sequence — but the Chroma
backend reports `collection.count()`, the unfiltered total, whatever the
filter. -/
theorem C7_list_pagination_totals (stF : FAISSState) (page limit : Nat) (f : FExpr)
    (docs : List DocView) (total : Nat) (hpage : 1 ≤ page)
    (hok : FAISSVectorStore.getDocuments stF page limit (some f) = .ok (docs, total)) :
    (total = (matchedDocs f stF.documents).length ∧
      docs = (((matchedDocs f stF.documents).drop ((page - 1) * limit)).take limit).map
        (fun p => ⟨p.1, p.2.text, p.2.metadata⟩)) ∧
    (∀ (stC : ChromaState) (page2 limit2 : Nat) (w : Option (Metadata → Bool)),
      (ChromaVectorStore.getDocuments stC page2 limit2 w).2 = ChromaVectorStore.count stC) := by
  constructor
  · rw [FAISSVectorStore.getDocuments] at hok
    cases hf : FAISSVectorStore.filterDocs f stF.documents with
    | error e => rw [hf] at hok; cases hok
    | ok l =>
      rw [hf] at hok
      dsimp only at hok
      injection hok with hok
      have h1 := congrArg Prod.fst hok
      have h2 := congrArg Prod.snd hok
      dsimp only at h1 h2
      rw [← filterDocs_ok f stF.documents l hf]
      exact ⟨h2.symm, h1.symm⟩
  · intro stC page2 limit2 w
    rfl


/-- A concrete two-document FAISS store for C7. -/
def c7Faiss : FAISSState :=
  (FAISSVectorStore.addDocuments c5Base ["a", "b"] ["ta", "tb"] [[1], [0]]
    [[("cat", .str "x")], [("cat", .str "y")]] "t").2

/-- The filter `{"cat": "x"}`. -/
def c7Filter : FExpr := .flds [("cat", .lit (.str "x"))]

/-- A concrete two-document Chroma collection for C7. -/
def c7Chroma : ChromaState :=
  ⟨[("a", ⟨"ta", [1], [("cat", .str "x")]⟩), ("b", ⟨"tb", [0], [("cat", .str "y")]⟩)]⟩

/-- The backend evaluation of the where-clause translated from
`{"cat": "x"}`. -/
def c7Where (m : Metadata) : Bool :=
  match m.lookup "cat" with
  | some (.str s) => s == "x"
  | _ => false

/-- C7 counterexample: a Chroma collection with two documents of which
exactly one matches the filter `{"cat": "x"}` reports total 2 — the
unfiltered collection count — instead of the matching count 1. -/
theorem C7_counterexample :
    (ChromaVectorStore.getDocuments c7Chroma 1 20 (some c7Where)).2 = 2 ∧
      (c7Chroma.entries.filter fun p =>
        match FAISSVectorStore.matchesFilter p.2.metadata c7Filter with
        | .ok true => true
        | _ => false).length = 1 := ⟨rfl, rfl⟩

/-- Witness for C7: a concrete two-document FAISS store listed with the
`{"cat": "x"}` filter. -/
theorem C7_witness :
    ((1 : Nat) = (matchedDocs c7Filter c7Faiss.documents).length ∧
      [(⟨"a", "ta", [("cat", J.str "x")]⟩ : DocView)] =
        (((matchedDocs c7Filter c7Faiss.documents).drop ((1 - 1) * 20)).take 20).map
          (fun p => ⟨p.1, p.2.text, p.2.metadata⟩)) ∧
    (∀ (stC : ChromaState) (page2 limit2 : Nat) (w : Option (Metadata → Bool)),
      (ChromaVectorStore.getDocuments stC page2 limit2 w).2 = ChromaVectorStore.count stC) :=
  C7_list_pagination_totals c7Faiss 1 20 c7Filter [⟨"a", "ta", [("cat", J.str "x")]⟩] 1 (by decide) rfl

/-- A concrete one-document FAISS store for C10. -/
def c10State : FAISSState :=
  (FAISSVectorStore.addDocuments c5Base ["a"] ["ta"] [[1]] [[]] "t").2

/-! ### Claim C10 -/

/-- C10 counterexample: updating a FAISS-stored document with only a new
embedding returns true but leaves the state completely unchanged — the
supplied vector is stored nowhere, so the embedding field is not
replaced. -/
theorem C10_counterexample :
    FAISSVectorStore.updateDocument c10State "a" none (some [5]) none = (true, c10State) := rfl

/-- C10 (amended): partial-update semantics.  In both backends `update`
returns false exactly when the id is absent (leaving the store unchanged),
and on success each omitted field is unchanged; the Chroma backend replaces
each supplied field (metadata after sanitization), while the FAISS backend
replaces only supplied text and metadata — a supplied embedding is ignored
(no in-place vector update). -/
theorem C10_partial_update (stF : FAISSState) (stC : ChromaState) (doc_id : String)
    (text : Option String) (embedding : Option (List Rat)) (metadata : Option Metadata) :
    ((stF.documents.lookup doc_id = none →
        FAISSVectorStore.updateDocument stF doc_id text embedding metadata = (false, stF)) ∧
      (∀ d, stF.documents.lookup doc_id = some d →
        FAISSVectorStore.updateDocument stF doc_id text embedding metadata =
          (true, { stF with documents := (dictInsert stF.documents doc_id
            ⟨text.getD d.text, metadata.getD d.metadata, d.created_at⟩) }))) ∧
    ((stC.entries.lookup doc_id = none →
        ChromaVectorStore.updateDocument stC doc_id text embedding metadata = (false, stC)) ∧
      (∀ d, stC.entries.lookup doc_id = some d →
        ChromaVectorStore.updateDocument stC doc_id text embedding metadata =
          (true, ⟨dictInsert stC.entries doc_id
            ⟨text.getD d.text, embedding.getD d.embedding,
              (metadata.map sanitizeMetadata).getD d.metadata⟩⟩))) := by
  refine ⟨⟨?_, ?_⟩, ?_, ?_⟩
  · intro h
    rw [FAISSVectorStore.updateDocument, h]
  · intro d h
    rw [FAISSVectorStore.updateDocument, h]
    cases text <;> cases metadata <;> rfl
  · intro h
    rw [ChromaVectorStore.updateDocument, h]
  · intro d h
    rw [ChromaVectorStore.updateDocument, h]
    cases text <;> cases embedding <;> cases metadata <;> rfl

/-- Witness for C10: a concrete text-only update on the FAISS store. -/
theorem C10_witness :
    FAISSVectorStore.updateDocument c10State "a" (some "new") none none =
      (true, { c10State with documents := (dictInsert c10State.documents "a"
        ⟨"new", [], "t"⟩) }) :=
  (C10_partial_update c10State ⟨[]⟩ "a" (some "new") none none).1.2 ⟨"ta", [], "t"⟩ rfl



/-! ### Rounding and score-conversion lemmas -/

theorem pyRoundInt_bounds (q : Rat) : ⌊q⌋ ≤ pyRoundInt q ∧ pyRoundInt q ≤ ⌊q⌋ + 1 := by
  simp only [pyRoundInt]
  split_ifs <;> omega

theorem pyRoundInt_nonneg (q : Rat) (h : 0 ≤ q) : 0 ≤ pyRoundInt q := by
  have hb := (pyRoundInt_bounds q).1
  have h2 : (0 : Int) ≤ ⌊q⌋ := Int.floor_nonneg.mpr h
  omega

theorem pyRoundInt_le (q : Rat) (n : Int) (h : q ≤ (n : Rat)) : pyRoundInt q ≤ n := by
  have hfl : ⌊q⌋ ≤ n := by
    have := Int.floor_le_floor h
    simpa using this
  simp only [pyRoundInt]
  split_ifs with h1 h2 h3
  · exact hfl
  · -- 1/2 < q - ⌊q⌋ : then (⌊q⌋ : Rat) < n - 1/2 so ⌊q⌋ < n
    have hq : (⌊q⌋ : Rat) < (n : Rat) - 1/2 := by
      have := Int.floor_le q
      linarith
    have : (⌊q⌋ : Rat) < (n : Rat) := by linarith
    have : ⌊q⌋ < n := by exact_mod_cast this
    omega
  · exact hfl
  · -- q - ⌊q⌋ = 1/2 exactly, odd floor
    have hr : q - (⌊q⌋ : Rat) = 1/2 := le_antisymm (not_lt.mp h2) (not_lt.mp h1)
    have hq : (⌊q⌋ : Rat) = q - 1/2 := by linarith
    have : (⌊q⌋ : Rat) < (n : Rat) := by
      rw [hq]
      linarith
    have : ⌊q⌋ < n := by exact_mod_cast this
    omega

theorem pyRoundInt_mono (a b : Rat) (h : a ≤ b) : pyRoundInt a ≤ pyRoundInt b := by
  have hf : ⌊a⌋ ≤ ⌊b⌋ := Int.floor_le_floor h
  rcases eq_or_lt_of_le hf with heq | hlt
  · have hr : a - (⌊a⌋ : Rat) ≤ b - (⌊b⌋ : Rat) := by
      rw [← heq]
      linarith
    simp only [pyRoundInt]
    rw [heq] at hr ⊢
    split_ifs <;> first | omega | (exfalso; linarith)
  · have ha := (pyRoundInt_bounds a).2
    have hb := (pyRoundInt_bounds b).1
    omega

theorem round4_nonneg (q : Rat) (h : 0 ≤ q) : 0 ≤ round4 q := by
  unfold round4
  have := pyRoundInt_nonneg (q * 10000) (by positivity)
  positivity

theorem round4_le_one (q : Rat) (h : q ≤ 1) : round4 q ≤ 1 := by
  unfold round4
  have h1 : pyRoundInt (q * 10000) ≤ 10000 := by
    apply pyRoundInt_le
    push_cast
    linarith
  rw [div_le_one (by norm_num)]
  exact_mod_cast h1

theorem round4_one : round4 1 = 1 := by
  norm_num [round4, pyRoundInt]

theorem round4_mono (a b : Rat) (h : a ≤ b) : round4 a ≤ round4 b := by
  unfold round4
  have h2 := pyRoundInt_mono (a * 10000) (b * 10000) (by linarith)
  have h3 : ((pyRoundInt (a * 10000) : Int) : Rat) ≤ ((pyRoundInt (b * 10000) : Int) : Rat) := by
    exact_mod_cast h2
  linarith


theorem convScore_nonneg (s : Rat) : 0 ≤ FAISSVectorStore.convScore s :=
  le_max_left 0 _

theorem convScore_le_one (s : Rat) : FAISSVectorStore.convScore s ≤ 1 := by
  unfold FAISSVectorStore.convScore
  apply max_le
  · norm_num
  · exact min_le_left 1 _

theorem convScore_mono (a b : Rat) (h : a ≤ b) :
    FAISSVectorStore.convScore a ≤ FAISSVectorStore.convScore b := by
  unfold FAISSVectorStore.convScore
  apply max_le_max le_rfl
  apply min_le_min le_rfl
  linarith

theorem searchLoop_good (st : FAISSState) (filters : Option FExpr) (min_score : Option Rat)
    (top_k : Nat) :
    ∀ cands acc rs,
      FAISSVectorStore.searchLoop st filters min_score top_k cands acc = .ok rs →
      ∀ r ∈ rs, r ∈ acc ∨
        ((∃ p ∈ cands, r.score = round4 (FAISSVectorStore.convScore p.2) ∧
            ∀ ms, min_score = some ms → ms ≤ FAISSVectorStore.convScore p.2) ∧
          (∃ d, st.documents.lookup r.id = some d ∧ r.text = d.text ∧ r.metadata = d.metadata) ∧
          (∀ f, filters = some f → FAISSVectorStore.matchesFilter r.metadata f = .ok true)) := by
  intro cands
  induction cands with
  | nil =>
    intro acc rs h r hr
    rw [FAISSVectorStore.searchLoop] at h
    injection h with h
    subst h
    exact Or.inl hr
  | cons p rest ih =>
    intro acc rs h r hr
    obtain ⟨idx, s⟩ := p
    rw [FAISSVectorStore.searchLoop] at h
    by_cases hneg : (idx == -1) = true
    · rw [if_pos hneg] at h
      rcases ih acc rs h r hr with h1 | ⟨⟨p, hp, hps⟩, h3, h4⟩
      · exact Or.inl h1
      · exact Or.inr ⟨⟨p, List.mem_cons_of_mem _ hp, hps⟩, h3, h4⟩
    · rw [if_neg hneg] at h
      cases hx : st.idx_to_id.lookup idx with
      | none =>
        rw [hx] at h
        rcases ih acc rs h r hr with h1 | ⟨⟨p, hp, hps⟩, h3, h4⟩
        · exact Or.inl h1
        · exact Or.inr ⟨⟨p, List.mem_cons_of_mem _ hp, hps⟩, h3, h4⟩
      | some doc_id =>
        rw [hx] at h
        dsimp only at h
        cases hdoc : st.documents.lookup doc_id with
        | none =>
          rw [hdoc] at h
          rcases ih acc rs h r hr with h1 | ⟨⟨p, hp, hps⟩, h3, h4⟩
          · exact Or.inl h1
          · exact Or.inr ⟨⟨p, List.mem_cons_of_mem _ hp, hps⟩, h3, h4⟩
        | some doc =>
          rw [hdoc] at h
          dsimp only at h
          by_cases hbm : FAISSVectorStore.belowMin min_score (FAISSVectorStore.convScore s) = true
          · rw [if_pos hbm] at h
            rcases ih acc rs h r hr with h1 | ⟨⟨p, hp, hps⟩, h3, h4⟩
            · exact Or.inl h1
            · exact Or.inr ⟨⟨p, List.mem_cons_of_mem _ hp, hps⟩, h3, h4⟩
          · rw [if_neg hbm] at h
            have hms : ∀ ms, min_score = some ms → ms ≤ FAISSVectorStore.convScore s := by
              intro ms hmseq
              subst hmseq
              unfold FAISSVectorStore.belowMin at hbm
              simp only [decide_eq_true_eq] at hbm
              exact not_lt.mp hbm
            cases haf : FAISSVectorStore.applyFilter filters doc.metadata with
            | error e => rw [haf] at h; cases h
            | ok keep =>
              rw [haf] at h
              cases keep with
              | false =>
                rcases ih acc rs h r hr with h1 | ⟨⟨p, hp, hps⟩, h3, h4⟩
                · exact Or.inl h1
                · exact Or.inr ⟨⟨p, List.mem_cons_of_mem _ hp, hps⟩, h3, h4⟩
              | true =>
                dsimp only at h
                have hnew : ∀ r2, r2 = (⟨doc_id, doc.text, doc.metadata,
                    round4 (FAISSVectorStore.convScore s)⟩ : FAISSVectorStore.SearchResult) →
                    ((∃ p ∈ (idx, s) :: rest,
                        r2.score = round4 (FAISSVectorStore.convScore p.2) ∧
                        ∀ ms, min_score = some ms → ms ≤ FAISSVectorStore.convScore p.2) ∧
                      (∃ d, st.documents.lookup r2.id = some d ∧ r2.text = d.text ∧
                        r2.metadata = d.metadata) ∧
                      (∀ f, filters = some f →
                        FAISSVectorStore.matchesFilter r2.metadata f = .ok true)) := by
                  intro r2 hr2
                  subst hr2
                  refine ⟨⟨(idx, s), List.mem_cons_self _ _, rfl, hms⟩,
                    ⟨doc, hdoc, rfl, rfl⟩, ?_⟩
                  intro f hf
                  subst hf
                  unfold FAISSVectorStore.applyFilter at haf
                  exact haf
                split at h
                · injection h with h
                  subst h
                  rcases List.mem_append.mp hr with h1 | h1
                  · exact Or.inl h1
                  · rw [List.mem_singleton] at h1
                    exact Or.inr (hnew r h1)
                · rcases ih _ rs h r hr with h1 | ⟨⟨p, hp, hps⟩, h3, h4⟩
                  · rcases List.mem_append.mp h1 with h2 | h2
                    · exact Or.inl h2
                    · rw [List.mem_singleton] at h2
                      exact Or.inr (hnew r h2)
                  · exact Or.inr ⟨⟨p, List.mem_cons_of_mem _ hp, hps⟩, h3, h4⟩


theorem searchLoop_length (st : FAISSState) (filters : Option FExpr) (min_score : Option Rat)
    (top_k : Nat) :
    ∀ cands acc rs, acc.length < top_k →
      FAISSVectorStore.searchLoop st filters min_score top_k cands acc = .ok rs →
      rs.length ≤ top_k := by
  intro cands
  induction cands with
  | nil =>
    intro acc rs hlen h
    rw [FAISSVectorStore.searchLoop] at h
    injection h with h
    subst h
    omega
  | cons p rest ih =>
    intro acc rs hlen h
    obtain ⟨idx, s⟩ := p
    rw [FAISSVectorStore.searchLoop] at h
    by_cases hneg : (idx == -1) = true
    · rw [if_pos hneg] at h
      exact ih acc rs hlen h
    · rw [if_neg hneg] at h
      cases hx : st.idx_to_id.lookup idx with
      | none =>
        rw [hx] at h
        exact ih acc rs hlen h
      | some doc_id =>
        rw [hx] at h
        dsimp only at h
        cases hdoc : st.documents.lookup doc_id with
        | none =>
          rw [hdoc] at h
          exact ih acc rs hlen h
        | some doc =>
          rw [hdoc] at h
          dsimp only at h
          by_cases hbm : FAISSVectorStore.belowMin min_score (FAISSVectorStore.convScore s) = true
          · rw [if_pos hbm] at h
            exact ih acc rs hlen h
          · rw [if_neg hbm] at h
            cases haf : FAISSVectorStore.applyFilter filters doc.metadata with
            | error e => rw [haf] at h; cases h
            | ok keep =>
              rw [haf] at h
              cases keep with
              | false => exact ih acc rs hlen h
              | true =>
                dsimp only at h
                split at h
                · injection h with h
                  subst h
                  simp only [List.length_append, List.length_singleton]
                  omega
                · rename_i hlt
                  apply ih _ rs ?_ h
                  simp only [List.length_append, List.length_singleton] at hlt ⊢
                  omega

theorem searchLoop_sorted (st : FAISSState) (filters : Option FExpr) (min_score : Option Rat)
    (top_k : Nat) :
    ∀ cands acc rs,
      cands.Pairwise (fun p q => q.2 ≤ p.2) →
      acc.Pairwise (fun r1 r2 => r2.score ≤ r1.score) →
      (∀ r ∈ acc, ∀ p ∈ cands, round4 (FAISSVectorStore.convScore p.2) ≤ r.score) →
      FAISSVectorStore.searchLoop st filters min_score top_k cands acc = .ok rs →
      rs.Pairwise (fun r1 r2 => r2.score ≤ r1.score) := by
  intro cands
  induction cands with
  | nil =>
    intro acc rs _ hacc _ h
    rw [FAISSVectorStore.searchLoop] at h
    injection h with h
    subst h
    exact hacc
  | cons p rest ih =>
    intro acc rs hcs hacc hbr h
    obtain ⟨idx, s⟩ := p
    rw [List.pairwise_cons] at hcs
    have hbr' : ∀ r ∈ acc, ∀ p ∈ rest, round4 (FAISSVectorStore.convScore p.2) ≤ r.score :=
      fun r hr p hp => hbr r hr p (List.mem_cons_of_mem _ hp)
    rw [FAISSVectorStore.searchLoop] at h
    by_cases hneg : (idx == -1) = true
    · rw [if_pos hneg] at h
      exact ih acc rs hcs.2 hacc hbr' h
    · rw [if_neg hneg] at h
      cases hx : st.idx_to_id.lookup idx with
      | none =>
        rw [hx] at h
        exact ih acc rs hcs.2 hacc hbr' h
      | some doc_id =>
        rw [hx] at h
        dsimp only at h
        cases hdoc : st.documents.lookup doc_id with
        | none =>
          rw [hdoc] at h
          exact ih acc rs hcs.2 hacc hbr' h
        | some doc =>
          rw [hdoc] at h
          dsimp only at h
          by_cases hbm : FAISSVectorStore.belowMin min_score (FAISSVectorStore.convScore s) = true
          · rw [if_pos hbm] at h
            exact ih acc rs hcs.2 hacc hbr' h
          · rw [if_neg hbm] at h
            cases haf : FAISSVectorStore.applyFilter filters doc.metadata with
            | error e => rw [haf] at h; cases h
            | ok keep =>
              rw [haf] at h
              cases keep with
              | false => exact ih acc rs hcs.2 hacc hbr' h
              | true =>
                dsimp only at h
                have hacc1 : (acc ++ [(⟨doc_id, doc.text, doc.metadata,
                    round4 (FAISSVectorStore.convScore s)⟩ :
                      FAISSVectorStore.SearchResult)]).Pairwise
                        (fun r1 r2 => r2.score ≤ r1.score) := by
                  rw [List.pairwise_append]
                  refine ⟨hacc, List.pairwise_singleton _ _, ?_⟩
                  intro a ha b hb
                  rw [List.mem_singleton] at hb
                  subst hb
                  exact hbr a ha (idx, s) (List.mem_cons_self _ _)
                have hbr1 : ∀ r ∈ acc ++ [(⟨doc_id, doc.text, doc.metadata,
                    round4 (FAISSVectorStore.convScore s)⟩ :
                      FAISSVectorStore.SearchResult)],
                    ∀ p ∈ rest, round4 (FAISSVectorStore.convScore p.2) ≤ r.score := by
                  intro r hr p hp
                  rcases List.mem_append.mp hr with h1 | h1
                  · exact hbr' r h1 p hp
                  · rw [List.mem_singleton] at h1
                    subst h1
                    exact round4_mono _ _ (convScore_mono _ _ (hcs.1 p hp))
                split at h
                · injection h with h
                  subst h
                  exact hacc1
                · exact ih _ rs hcs.2 hacc1 hbr1 h


/-! ### Claim C4 -/

/-- C4 (amended): `search` requests `min(top_k*5, ntotal)` candidates when
a filter is present and `min(top_k, ntotal)` otherwise (not exactly
`top_k*5`/`top_k`: the request is capped by the index size, and an empty
index short-circuits to `[]`).  Every returned result's score is the
4-decimal rounding of the clamped similarity `(score+1)/2` of one returned
candidate, lies in `[0,1]`, passed the `min_score` cut before rounding, and
carries the stored text/metadata of a live document whose metadata matches
the filter when one is given; at most `top_k` results are returned, and the
index's descending-score order is preserved. -/
theorem C4_search_postprocessing (st : FAISSState) (idxSearch : Nat → List (Int × Rat))
    (top_k : Nat) (filters : Option FExpr) (min_score : Option Rat)
    (rs : List FAISSVectorStore.SearchResult) (htk : 1 ≤ top_k)
    (hok : FAISSVectorStore.search st idxSearch top_k filters min_score = .ok rs) :
    FAISSVectorStore.requestK st top_k filters =
      min (if filters.isSome then top_k * 5 else top_k) st.ntotal ∧
    rs.length ≤ top_k ∧
    (∀ r ∈ rs,
      (∃ p ∈ idxSearch (FAISSVectorStore.requestK st top_k filters),
        r.score = round4 (FAISSVectorStore.convScore p.2) ∧
        ∀ ms, min_score = some ms → ms ≤ FAISSVectorStore.convScore p.2) ∧
      0 ≤ r.score ∧ r.score ≤ 1 ∧
      (∃ d, st.documents.lookup r.id = some d ∧ r.text = d.text ∧ r.metadata = d.metadata) ∧
      (∀ f, filters = some f → FAISSVectorStore.matchesFilter r.metadata f = .ok true)) ∧
    ((idxSearch (FAISSVectorStore.requestK st top_k filters)).Pairwise (fun p q => q.2 ≤ p.2) →
      rs.Pairwise (fun r1 r2 => r2.score ≤ r1.score)) := by
  refine ⟨rfl, ?_, ?_, ?_⟩
  · rw [FAISSVectorStore.search] at hok
    split at hok
    · injection hok with hok
      subst hok
      simp
    · exact searchLoop_length st filters min_score top_k _ [] rs (by simpa using htk) hok
  · intro r hr
    rw [FAISSVectorStore.search] at hok
    split at hok
    · injection hok with hok
      subst hok
      cases hr
    · have hg := searchLoop_good st filters min_score top_k _ [] rs hok r hr
      rcases hg with h1 | ⟨⟨p, hp, hsc, hms⟩, hd, hf⟩
      · cases h1
      · refine ⟨⟨p, hp, hsc, hms⟩, ?_, ?_, hd, hf⟩
        · rw [hsc]
          exact round4_nonneg _ (convScore_nonneg _)
        · rw [hsc]
          exact round4_le_one _ (convScore_le_one _)
  · intro hsorted
    rw [FAISSVectorStore.search] at hok
    split at hok
    · injection hok with hok
      subst hok
      exact List.Pairwise.nil
    · exact searchLoop_sorted st filters min_score top_k _ [] rs hsorted List.Pairwise.nil
        (by intro r hr; cases hr) hok

/-- C4 counterexample: with a single vector in the index, `top_k = 3` and
no filter, `search` requests `min(3, ntotal) = 1` candidate from the index,
not exactly 3 as claimed. -/
theorem C4_counterexample :
    FAISSVectorStore.requestK c10State 3 none = 1 ∧ (1 : Nat) ≠ 3 := ⟨rfl, by decide⟩

/-- Witness for C4: a one-document store searched with a concrete index
oracle. -/
theorem C4_witness :
    FAISSVectorStore.requestK c10State 1 none = min 1 c10State.ntotal ∧
      [(⟨"a", "ta", [], round4 (FAISSVectorStore.convScore 1)⟩ :
        FAISSVectorStore.SearchResult)].length ≤ 1 ∧
      (∀ r ∈ [(⟨"a", "ta", [], round4 (FAISSVectorStore.convScore 1)⟩ :
          FAISSVectorStore.SearchResult)],
        (∃ p ∈ (fun _ => [((0 : Int), (1 : Rat))]) (FAISSVectorStore.requestK c10State 1 none),
          r.score = round4 (FAISSVectorStore.convScore p.2) ∧
          ∀ ms, (none : Option Rat) = some ms → ms ≤ FAISSVectorStore.convScore p.2) ∧
        0 ≤ r.score ∧ r.score ≤ 1 ∧
        (∃ d, c10State.documents.lookup r.id = some d ∧ r.text = d.text ∧
          r.metadata = d.metadata) ∧
        (∀ f, (none : Option FExpr) = some f →
          FAISSVectorStore.matchesFilter r.metadata f = .ok true)) ∧
      (((fun _ => [((0 : Int), (1 : Rat))])
          (FAISSVectorStore.requestK c10State 1 none)).Pairwise (fun p q => q.2 ≤ p.2) →
        [(⟨"a", "ta", [], round4 (FAISSVectorStore.convScore 1)⟩ :
          FAISSVectorStore.SearchResult)].Pairwise (fun r1 r2 => r2.score ≤ r1.score)) :=
  C4_search_postprocessing c10State (fun _ => [((0 : Int), (1 : Rat))]) 1 none none
    [⟨"a", "ta", [], round4 (FAISSVectorStore.convScore 1)⟩] (by decide) rfl



/-- Python `max(xs)` over a list (`none` on an empty list, where Python
raises `ValueError`). -/
def pyMax : List Rat → Option Rat
  | [] => none
  | x :: rest =>
    match pyMax rest with
    | none => some x
    | some m => some (max x m)

theorem pyMax_ge (l : List Rat) :
    ∀ x ∈ l, ∀ m, pyMax l = some m → x ≤ m := by
  induction l with
  | nil => intro x hx; cases hx
  | cons a rest ih =>
    intro x hx m hm
    rw [pyMax] at hm
    rcases List.mem_cons.mp hx with he | hmem
    · subst he
      cases hp : pyMax rest with
      | none => rw [hp] at hm; injection hm with hm; subst hm; exact le_refl x
      | some m2 =>
        rw [hp] at hm
        injection hm with hm
        subst hm
        exact le_max_left x m2
    · cases hp : pyMax rest with
      | none =>
        rcases rest with _ | ⟨y, ys⟩
        · cases hmem
        · rw [pyMax] at hp
          cases h2 : pyMax ys <;> rw [h2] at hp <;> cases hp
      | some m2 =>
        rw [hp] at hm
        injection hm with hm
        subst hm
        exact le_trans (ih x hmem m2 hp) (le_max_right a m2)

theorem pyMax_mem (l : List Rat) : ∀ m, pyMax l = some m → m ∈ l := by
  induction l with
  | nil => intro m hm; cases hm
  | cons a rest ih =>
    intro m hm
    rw [pyMax] at hm
    cases hp : pyMax rest with
    | none =>
      rw [hp] at hm
      injection hm with hm
      subst hm
      exact List.mem_cons_self _ _
    | some m2 =>
      rw [hp] at hm
      injection hm with hm
      subst hm
      rcases max_choice a m2 with h | h
      · rw [h]; exact List.mem_cons_self _ _
      · rw [h]; exact List.mem_cons_of_mem _ (ih m2 hp)

/-- One entry of the list `KeywordSearchEngine.search` returns (the
optional highlight field is irrelevant to the claims and omitted). -/
structure KwResult where
  id : String
  text : String
  metadata : Metadata
  score : Rat
  keyword_rank : Nat

namespace KeywordSearchEngine

/-- The result-collection loop of `search` over the score-sorted snapshot:
skip non-positive scores and ids no longer present in the store, evaluate
the filter against the freshly fetched metadata, normalize and round the
score, and stop once `top_k` results are collected. -/
def searchLoop (storeGet : String → Option DocView) (filters : Option FExpr)
    (maxScore : Rat) (top_k : Nat) :
    List (Rat × String × String) → List KwResult → Except Unit (List KwResult)
  | [], acc => .ok acc
  | (score, dt) :: rest, acc =>
    if score ≤ 0 then searchLoop storeGet filters maxScore top_k rest acc
    else
      match storeGet dt.1 with
      | none => searchLoop storeGet filters maxScore top_k rest acc
      | some doc =>
        match (match filters with
               | some f => matchesFilter doc.metadata f
               | none => .ok true) with
        | .error e => .error e
        | .ok false => searchLoop storeGet filters maxScore top_k rest acc
        | .ok true =>
          let acc1 := acc ++
            [⟨dt.1, dt.2, doc.metadata, round4 (score / maxScore), acc.length + 1⟩]
          if top_k ≤ acc1.length then .ok acc1
          else searchLoop storeGet filters maxScore top_k rest acc1

/-- `KeywordSearchEngine.search`, given the cached snapshot (the `(id, raw
text)` pairs captured at index-build time, possibly stale), the scores the
external BM25 model returns for the query (aligned with the snapshot), and
the store's current `get_document`.  An empty snapshot means no index
exists and the search returns `[]`; `max()` of an empty score sequence
raises.  The snapshot is sorted by score descending (stable) and only the
top `3*top_k` raw candidates are examined. -/
def search (snapshot : List (String × String)) (scores : List Rat)
    (storeGet : String → Option DocView) (top_k : Nat) (filters : Option FExpr) :
    Except Unit (List KwResult) :=
  if snapshot.isEmpty then .ok []
  else
    match pyMax scores with
    | none => .error ()
    | some mx =>
      let maxScore := if 0 < mx then mx else 1
      let scored := (scores.zip snapshot).mergeSort (fun a b => decide (b.1 ≤ a.1))
      searchLoop storeGet filters maxScore top_k (scored.take (top_k * 3)) []

end KeywordSearchEngine

theorem kwSearchLoop_mem (storeGet : String → Option DocView) (filters : Option FExpr)
    (maxScore : Rat) (top_k : Nat) :
    ∀ cands acc rs,
      KeywordSearchEngine.searchLoop storeGet filters maxScore top_k cands acc = .ok rs →
      ∀ r ∈ rs, r ∈ acc ∨ (storeGet r.id).isSome = true := by
  intro cands
  induction cands with
  | nil =>
    intro acc rs h r hr
    rw [KeywordSearchEngine.searchLoop] at h
    injection h with h
    subst h
    exact Or.inl hr
  | cons p rest ih =>
    intro acc rs h r hr
    obtain ⟨score, dt⟩ := p
    rw [KeywordSearchEngine.searchLoop] at h
    by_cases hs : (score ≤ 0)
    · rw [if_pos hs] at h
      exact ih acc rs h r hr
    · rw [if_neg hs] at h
      cases hg : storeGet dt.1 with
      | none =>
        rw [hg] at h
        exact ih acc rs h r hr
      | some doc =>
        rw [hg] at h
        dsimp only at h
        cases hf : (match filters with
                    | some f => KeywordSearchEngine.matchesFilter doc.metadata f
                    | none => .ok true) with
        | error e => rw [hf] at h; cases h
        | ok keep =>
          rw [hf] at h
          cases keep with
          | false => exact ih acc rs h r hr
          | true =>
            dsimp only at h
            split at h
            · injection h with h
              subst h
              rcases List.mem_append.mp hr with h1 | h1
              · exact Or.inl h1
              · rw [List.mem_singleton] at h1
                subst h1
                right
                rw [hg]
                rfl
            · rcases ih _ rs h r hr with h1 | h1
              · rcases List.mem_append.mp h1 with h2 | h2
                · exact Or.inl h2
                · rw [List.mem_singleton] at h2
                  subst h2
                  right
                  rw [hg]
                  rfl
              · exact Or.inr h1

/-! ### Claim C8 -/

/-- C8: a keyword query never returns a document not currently present in
the store.  Whatever cached snapshot the engine holds (including a stale
one containing ids deleted since the index was built) and whatever scores
the BM25 model produced, every result of `KeywordSearchEngine.search` has
an id for which the store's `get_document` currently returns a document —
the loop refetches every candidate and skips ids the store no longer
knows. -/
theorem C8_keyword_results_live (snapshot : List (String × String)) (scores : List Rat)
    (storeGet : String → Option DocView) (top_k : Nat) (filters : Option FExpr)
    (rs : List KwResult)
    (hok : KeywordSearchEngine.search snapshot scores storeGet top_k filters = .ok rs) :
    ∀ r ∈ rs, (storeGet r.id).isSome = true := by
  intro r hr
  rw [KeywordSearchEngine.search] at hok
  split at hok
  · injection hok with hok
    subst hok
    cases hr
  · cases hm : pyMax scores with
    | none => rw [hm] at hok; cases hok
    | some mx =>
      rw [hm] at hok
      dsimp only at hok
      have := kwSearchLoop_mem storeGet filters _ top_k _ [] rs hok r hr
      rcases this with h1 | h1
      · cases h1
      · exact h1

/-- Witness for C8: a stale single-entry snapshot queried against the
concrete one-document store. -/
theorem C8_witness :
    (FAISSVectorStore.getDocument c10State
      ((⟨"a", "old text", [], round4 (1 / 1), 1⟩ : KwResult)).id).isSome = true :=
  C8_keyword_results_live [("a", "old text")] [1] (FAISSVectorStore.getDocument c10State) 1 none
    [⟨"a", "old text", [], round4 (1 / 1), 1⟩]
    (by
      rw [KeywordSearchEngine.search]
      simp only [List.mergeSort_singleton, List.zip_cons_cons, List.zip_nil_right]
      rw [if_neg (by decide)]
      rw [show pyMax [1] = some 1 from rfl]
      dsimp only
      rw [if_pos (by norm_num : (0:Rat) < 1)]
      rfl)
    ⟨"a", "old text", [], round4 (1 / 1), 1⟩
    (List.mem_singleton.mpr rfl)


end LVS
namespace LVS

/-- A ranked result as far as rank fusion is concerned: document id and
score (the other result fields do not affect fused scores or order). -/
structure RankedItem where
  id : String
  score : Rat

/-- `rrf_scores[doc_id] = rrf_scores.get(doc_id, 0) + x`: Python dict
accumulation (existing keys keep their position, new keys are appended). -/
def bumpScore : List (String × Rat) → String → Rat → List (String × Rat)
  | [], d, x => [(d, x)]
  | (k, v) :: rest, d, x =>
    if k == d then (k, v + x) :: rest else (k, v) :: bumpScore rest d x

/-- The `for i, result in enumerate(...)` loop accumulating
`1.0 / (k + i + 1)` with `k = 60`. -/
def rrfAccum (start : Nat) : List String → List (String × Rat) → List (String × Rat)
  | [], acc => acc
  | d :: rest, acc =>
    rrfAccum (start + 1) rest (bumpScore acc d (1 / (60 + (start : Rat) + 1)))

/-- Insertion order of the `all_docs` dict keys: an existing key keeps its
position, a new key is appended. -/
def keysInsert (l : List String) (d : String) : List String :=
  if l.contains d then l else l ++ [d]

/-- `_reciprocal_rank_fusion` (κ = 60): accumulate the reciprocal-rank
contributions of both lists, normalize by the maximum accumulated score
(each score is `round(rrf/max, 4)` when the maximum is positive, else 0;
the maximum defaults to 1.0 when there are no scores), and sort descending
by score (stable). -/
def reciprocalRankFusion (vec kw : List RankedItem) : List RankedItem :=
  let rrf := rrfAccum 0 (kw.map RankedItem.id) (rrfAccum 0 (vec.map RankedItem.id) [])
  let allIds := (kw.map RankedItem.id).foldl keysInsert
    ((vec.map RankedItem.id).foldl keysInsert [])
  let maxRrf := (pyMax (rrf.map Prod.snd)).getD 1
  let entries := allIds.map fun d =>
    RankedItem.mk d (if 0 < maxRrf then round4 (((rrf.lookup d).getD 0) / maxRrf) else 0)
  entries.mergeSort (fun a b => decide (b.score ≤ a.score))

/-- The reference 1-based reciprocal-rank contribution of a ranked list to
a document: `1/(60 + rank)` for the document's rank (`start` ranks already
consumed), 0 when absent. -/
def rrfTerm (start : Nat) : List String → String → Rat
  | [], _ => 0
  | a :: rest, d =>
    if a == d then 1 / (60 + (start : Rat) + 1) else rrfTerm (start + 1) rest d

theorem rrfTerm_nonneg (ids : List String) : ∀ start d, 0 ≤ rrfTerm start ids d := by
  induction ids with
  | nil => intro start d; rw [rrfTerm]
  | cons a rest ih =>
    intro start d
    rw [rrfTerm]
    split
    · positivity
    · exact ih (start + 1) d

theorem rrfTerm_zero_of_not_mem (ids : List String) :
    ∀ start d, d ∉ ids → rrfTerm start ids d = 0 := by
  induction ids with
  | nil => intro start d _; rw [rrfTerm]
  | cons a rest ih =>
    intro start d hd
    rw [rrfTerm]
    have hne : ¬ (a == d) = true := by
      simp only [beq_iff_eq]
      intro h
      exact hd (by rw [← h]; exact List.mem_cons_self a rest)
    rw [if_neg hne]
    exact ih (start + 1) d (fun h => hd (List.mem_cons_of_mem a h))

theorem rrfTerm_pos_of_mem (ids : List String) :
    ∀ start d, d ∈ ids → 0 < rrfTerm start ids d := by
  induction ids with
  | nil => intro start d hd; cases hd
  | cons a rest ih =>
    intro start d hd
    rw [rrfTerm]
    by_cases ha : (a == d) = true
    · rw [if_pos ha]; positivity
    · rw [if_neg ha]
      rcases List.mem_cons.mp hd with he | hm
      · exact absurd (by simp [he]) ha
      · exact ih (start + 1) d hm

theorem bumpScore_lookup_self (l : List (String × Rat)) (d : String) (x : Rat) :
    (bumpScore l d x).lookup d = some (((l.lookup d).getD 0) + x) := by
  induction l with
  | nil => simp [bumpScore, List.lookup]
  | cons p rest ih =>
    obtain ⟨k, v⟩ := p
    rw [bumpScore]
    by_cases hk : (k == d) = true
    · rw [if_pos hk]
      have he : (d == k) = true := by simp at hk ⊢; exact hk.symm
      rw [List.lookup, he, List.lookup, he]
      rfl
    · rw [if_neg hk]
      have he : (d == k) = false := by
        simp at hk ⊢
        exact fun h => hk h.symm
      rw [List.lookup, he, List.lookup, he]
      exact ih

theorem bumpScore_lookup_ne (l : List (String × Rat)) (d d' : String) (x : Rat)
    (h : d' ≠ d) : (bumpScore l d x).lookup d' = l.lookup d' := by
  induction l with
  | nil =>
    have he : (d' == d) = false := by simp [h]
    simp [bumpScore, List.lookup, he]
  | cons p rest ih =>
    obtain ⟨k, v⟩ := p
    rw [bumpScore]
    by_cases hk : (k == d) = true
    · rw [if_pos hk]
      have he : (d' == k) = false := by
        simp at hk ⊢
        rw [hk]
        exact h
      rw [List.lookup, he, List.lookup, he]
    · rw [if_neg hk]
      rw [List.lookup, List.lookup]
      cases hd : d' == k with
      | true => rfl
      | false => exact ih

theorem rrfAccum_lookupD (ids : List String) :
    ∀ start acc d, ids.Nodup →
      (((rrfAccum start ids acc).lookup d).getD 0) =
        ((acc.lookup d).getD 0) + rrfTerm start ids d := by
  induction ids with
  | nil =>
    intro start acc d _
    rw [rrfAccum, rrfTerm]
    ring
  | cons a rest ih =>
    intro start acc d hnd
    rw [List.nodup_cons] at hnd
    rw [rrfAccum, rrfTerm]
    by_cases ha : (a == d) = true
    · have hae : a = d := by simpa using ha
      subst hae
      rw [if_pos (by simp)]
      rw [ih (start + 1) _ a hnd.2]
      rw [bumpScore_lookup_self]
      rw [rrfTerm_zero_of_not_mem rest _ a hnd.1]
      simp
    · have hae : d ≠ a := by
        simp at ha
        exact fun h => ha h.symm
      rw [if_neg ha]
      rw [ih (start + 1) _ d hnd.2]
      rw [bumpScore_lookup_ne _ _ _ _ hae]

end LVS
namespace LVS

theorem mem_of_lookup_eq_some {α β : Type} [BEq α] [LawfulBEq α]
    (l : List (α × β)) (k : α) (v : β) (h : l.lookup k = some v) : (k, v) ∈ l := by
  induction l with
  | nil => cases h
  | cons p rest ih =>
    obtain ⟨k0, v0⟩ := p
    rw [List.lookup] at h
    cases hk : k == k0 with
    | true =>
      rw [hk] at h
      injection h with h
      subst h
      have : k = k0 := eq_of_beq hk
      subst this
      exact List.mem_cons_self _ _
    | false =>
      rw [hk] at h
      exact List.mem_cons_of_mem _ (ih h)

theorem bumpScore_keys_mem (l : List (String × Rat)) (d : String) (x : Rat) :
    ∀ k, k ∈ (bumpScore l d x).map Prod.fst → k ∈ l.map Prod.fst ∨ k = d := by
  induction l with
  | nil =>
    intro k hk
    simp [bumpScore] at hk
    right
    exact hk
  | cons p rest ih =>
    obtain ⟨k0, v0⟩ := p
    intro k hk
    rw [bumpScore] at hk
    by_cases h0 : (k0 == d) = true
    · rw [if_pos h0] at hk
      simp only [List.map_cons, List.mem_cons] at hk
      rcases hk with h1 | h1
      · left; simp [h1]
      · left; simp only [List.map_cons, List.mem_cons]; right; exact h1
    · rw [if_neg h0] at hk
      simp only [List.map_cons, List.mem_cons] at hk
      rcases hk with h1 | h1
      · left; simp [h1]
      · rcases ih k h1 with h2 | h2
        · left; simp only [List.map_cons, List.mem_cons]; right; exact h2
        · right; exact h2

theorem bumpScore_keys_nodup (l : List (String × Rat)) (d : String) (x : Rat)
    (h : (l.map Prod.fst).Nodup) : ((bumpScore l d x).map Prod.fst).Nodup := by
  induction l with
  | nil => simp [bumpScore]
  | cons p rest ih =>
    obtain ⟨k0, v0⟩ := p
    simp only [List.map_cons, List.nodup_cons] at h
    rw [bumpScore]
    by_cases h0 : (k0 == d) = true
    · rw [if_pos h0]
      simp only [List.map_cons, List.nodup_cons]
      exact h
    · rw [if_neg h0]
      simp only [List.map_cons, List.nodup_cons]
      refine ⟨?_, ih h.2⟩
      intro hmem
      rcases bumpScore_keys_mem rest d x k0 hmem with h1 | h1
      · exact h.1 h1
      · rw [beq_iff_eq] at h0
        exact h0 h1

end LVS
namespace LVS

theorem rrfAccum_keys_mem (ids : List String) :
    ∀ start acc k, k ∈ ((rrfAccum start ids acc).map Prod.fst) →
      k ∈ acc.map Prod.fst ∨ k ∈ ids := by
  induction ids with
  | nil =>
    intro start acc k hk
    rw [rrfAccum] at hk
    exact Or.inl hk
  | cons a rest ih =>
    intro start acc k hk
    rw [rrfAccum] at hk
    rcases ih (start + 1) _ k hk with h1 | h1
    · rcases bumpScore_keys_mem acc a _ k h1 with h2 | h2
      · exact Or.inl h2
      · right; rw [h2]; exact List.mem_cons_self _ _
    · right; exact List.mem_cons_of_mem _ h1

theorem rrfAccum_keys_nodup (ids : List String) :
    ∀ start acc, (acc.map Prod.fst).Nodup → ((rrfAccum start ids acc).map Prod.fst).Nodup := by
  induction ids with
  | nil =>
    intro start acc h
    rw [rrfAccum]
    exact h
  | cons a rest ih =>
    intro start acc h
    rw [rrfAccum]
    exact ih (start + 1) _ (bumpScore_keys_nodup acc a _ h)

theorem pyMax_eq_none (l : List Rat) (h : pyMax l = none) : l = [] := by
  cases l with
  | nil => rfl
  | cons a rest =>
    rw [pyMax] at h
    cases hp : pyMax rest <;> rw [hp] at h <;> cases h

theorem keysInsert_mem_of (l : List String) (d k : String) (h : k ∈ l) :
    k ∈ keysInsert l d := by
  rw [keysInsert]
  split
  · exact h
  · exact List.mem_append_left _ h

theorem keysInsert_mem_self (l : List String) (d : String) : d ∈ keysInsert l d := by
  rw [keysInsert]
  split
  · rename_i hc
    have : d ∈ l := by
      rw [List.contains_iff_exists_mem_beq] at hc
      obtain ⟨a, ha, hb⟩ := hc
      rw [show d = a from eq_of_beq hb]
      exact ha
    exact this
  · exact List.mem_append_right _ (List.mem_singleton.mpr rfl)

theorem foldl_keysInsert_mem_acc (ids : List String) :
    ∀ acc k, k ∈ acc → k ∈ ids.foldl keysInsert acc := by
  induction ids with
  | nil => intro acc k h; exact h
  | cons a rest ih =>
    intro acc k h
    rw [List.foldl_cons]
    exact ih _ k (keysInsert_mem_of acc a k h)

theorem foldl_keysInsert_mem (ids : List String) :
    ∀ acc k, k ∈ ids → k ∈ ids.foldl keysInsert acc := by
  induction ids with
  | nil => intro acc k h; cases h
  | cons a rest ih =>
    intro acc k h
    rw [List.foldl_cons]
    rcases List.mem_cons.mp h with he | hm
    · subst he
      exact foldl_keysInsert_mem_acc rest _ k (keysInsert_mem_self acc k)
    · exact ih _ k hm

end LVS
namespace LVS

/-- Lookup in an association list with duplicate-free keys finds exactly the
value of any member pair. -/
theorem lookup_eq_some_of_mem_nodup (l : List (String × Rat)) :
    ∀ k v, (l.map Prod.fst).Nodup → (k, v) ∈ l → l.lookup k = some v := by
  induction l with
  | nil => intro k v _ hm; cases hm
  | cons p rest ih =>
    obtain ⟨k0, v0⟩ := p
    intro k v hnd hm
    rw [List.map_cons, List.nodup_cons] at hnd
    rcases List.mem_cons.mp hm with he | hmem
    · cases he
      simp [List.lookup]
    · have hk : (k == k0) = false := by
        simp only [beq_eq_false_iff_ne, ne_eq]
        intro h
        exact hnd.1 (List.mem_map.mpr ⟨(k, v), hmem, h⟩)
      rw [List.lookup, hk]
      exact ih k v hnd.2 hmem

/-- The accumulated RRF score of a document is the sum of its reciprocal-rank
contributions from the two input lists (1-based ranks, constant 60). -/
theorem rrfCombined (vec kw : List RankedItem)
    (hv : (vec.map RankedItem.id).Nodup) (hk : (kw.map RankedItem.id).Nodup)
    (d : String) :
    (((rrfAccum 0 (kw.map RankedItem.id)
        (rrfAccum 0 (vec.map RankedItem.id) [])).lookup d).getD 0)
      = rrfTerm 0 (vec.map RankedItem.id) d + rrfTerm 0 (kw.map RankedItem.id) d := by
  rw [rrfAccum_lookupD _ 0 _ d hk, rrfAccum_lookupD _ 0 [] d hv]
  simp only [List.lookup_nil, Option.getD_none]
  ring

/-- Each normalized score `round(rrf/max, 4) if max > 0 else 0` lies in
`[0,1]` as soon as the looked-up accumulated score is nonnegative. -/
theorem rrfScore_bounds (rrf : List (String × Rat)) (d : String)
    (h0 : 0 ≤ ((rrf.lookup d).getD 0)) :
    0 ≤ (if 0 < (pyMax (rrf.map Prod.snd)).getD 1
         then round4 ((((rrf.lookup d).getD 0)) / (pyMax (rrf.map Prod.snd)).getD 1)
         else 0) ∧
      (if 0 < (pyMax (rrf.map Prod.snd)).getD 1
       then round4 ((((rrf.lookup d).getD 0)) / (pyMax (rrf.map Prod.snd)).getD 1)
       else 0) ≤ 1 := by
  by_cases hpos : 0 < (pyMax (rrf.map Prod.snd)).getD 1
  · rw [if_pos hpos]
    refine ⟨round4_nonneg _ (div_nonneg h0 (le_of_lt hpos)), round4_le_one _ ?_⟩
    rw [div_le_one hpos]
    cases hlk : rrf.lookup d with
    | none =>
      simp only [Option.getD_none]
      exact le_of_lt hpos
    | some v =>
      simp only [Option.getD_some]
      have hmem : v ∈ rrf.map Prod.snd :=
        List.mem_map_of_mem Prod.snd (mem_of_lookup_eq_some rrf d v hlk)
      cases hpm : pyMax (rrf.map Prod.snd) with
      | none =>
        rw [pyMax_eq_none _ hpm] at hmem
        cases hmem
      | some m =>
        simp only [Option.getD_some]
        exact pyMax_ge _ v hmem m hpm
  · rw [if_neg hpos]
    norm_num

/-- Unfolding of `reciprocalRankFusion` with its local bindings expanded. -/
theorem reciprocalRankFusion_eq (vec kw : List RankedItem) :
    reciprocalRankFusion vec kw =
      (((kw.map RankedItem.id).foldl keysInsert
          ((vec.map RankedItem.id).foldl keysInsert [])).map
        (fun d => RankedItem.mk d
          (if 0 < (pyMax ((rrfAccum 0 (kw.map RankedItem.id)
                (rrfAccum 0 (vec.map RankedItem.id) [])).map Prod.snd)).getD 1
           then round4
             ((((rrfAccum 0 (kw.map RankedItem.id)
                  (rrfAccum 0 (vec.map RankedItem.id) [])).lookup d).getD 0) /
               (pyMax ((rrfAccum 0 (kw.map RankedItem.id)
                  (rrfAccum 0 (vec.map RankedItem.id) [])).map Prod.snd)).getD 1)
           else 0))).mergeSort (fun a b => decide (b.score ≤ a.score)) := rfl

/-- If `d` realizes the maximum accumulated score, which is positive, the
sorted normalized output starts with an entry of score exactly 1. -/
theorem fusedSortedHead (rrf : List (String × Rat)) (allIds : List String) (d : String)
    (hnn : ∀ e, 0 ≤ ((rrf.lookup e).getD 0))
    (hall : d ∈ allIds)
    (hmax : pyMax (rrf.map Prod.snd) = some (((rrf.lookup d).getD 0)))
    (hpos : 0 < ((rrf.lookup d).getD 0)) :
    ∃ r rest,
      (allIds.map (fun e => RankedItem.mk e
          (if 0 < (pyMax (rrf.map Prod.snd)).getD 1
           then round4 ((((rrf.lookup e).getD 0)) / (pyMax (rrf.map Prod.snd)).getD 1)
           else 0))).mergeSort (fun a b => decide (b.score ≤ a.score)) = r :: rest ∧
        r.score = 1 := by
  have hmr : (pyMax (rrf.map Prod.snd)).getD 1 = ((rrf.lookup d).getD 0) := by
    rw [hmax]
    rfl
  have hfd : RankedItem.mk d
      (if 0 < (pyMax (rrf.map Prod.snd)).getD 1
       then round4 ((((rrf.lookup d).getD 0)) / (pyMax (rrf.map Prod.snd)).getD 1)
       else 0) = RankedItem.mk d 1 := by
    rw [hmr, if_pos hpos, div_self (ne_of_gt hpos), round4_one]
  have hment : RankedItem.mk d 1 ∈ (allIds.map (fun e => RankedItem.mk e
      (if 0 < (pyMax (rrf.map Prod.snd)).getD 1
       then round4 ((((rrf.lookup e).getD 0)) / (pyMax (rrf.map Prod.snd)).getD 1)
       else 0))) := by
    rw [List.mem_map]
    exact ⟨d, hall, hfd⟩
  have hmem2 : RankedItem.mk d 1 ∈ (allIds.map (fun e => RankedItem.mk e
      (if 0 < (pyMax (rrf.map Prod.snd)).getD 1
       then round4 ((((rrf.lookup e).getD 0)) / (pyMax (rrf.map Prod.snd)).getD 1)
       else 0))).mergeSort (fun a b => decide (b.score ≤ a.score)) :=
    List.mem_mergeSort.mpr hment
  have hbound : ∀ r ∈ (allIds.map (fun e => RankedItem.mk e
      (if 0 < (pyMax (rrf.map Prod.snd)).getD 1
       then round4 ((((rrf.lookup e).getD 0)) / (pyMax (rrf.map Prod.snd)).getD 1)
       else 0))).mergeSort (fun a b => decide (b.score ≤ a.score)), r.score ≤ 1 := by
    intro r hr
    rw [List.mem_mergeSort, List.mem_map] at hr
    obtain ⟨e, _, hre⟩ := hr
    rw [← hre]
    exact (rrfScore_bounds rrf e (hnn e)).2
  have htrans : ∀ a b c : RankedItem,
      decide (b.score ≤ a.score) = true → decide (c.score ≤ b.score) = true →
      decide (c.score ≤ a.score) = true := by
    intro a b c hab hbc
    simp only [decide_eq_true_eq] at hab hbc ⊢
    exact le_trans hbc hab
  have htotal : ∀ a b : RankedItem,
      (decide (b.score ≤ a.score) || decide (a.score ≤ b.score)) = true := by
    intro a b
    rcases le_total b.score a.score with h | h <;> simp [h]
  have hsorted := List.sorted_mergeSort htrans htotal (allIds.map (fun e => RankedItem.mk e
      (if 0 < (pyMax (rrf.map Prod.snd)).getD 1
       then round4 ((((rrf.lookup e).getD 0)) / (pyMax (rrf.map Prod.snd)).getD 1)
       else 0)))
  cases hres : (allIds.map (fun e => RankedItem.mk e
      (if 0 < (pyMax (rrf.map Prod.snd)).getD 1
       then round4 ((((rrf.lookup e).getD 0)) / (pyMax (rrf.map Prod.snd)).getD 1)
       else 0))).mergeSort (fun a b => decide (b.score ≤ a.score)) with
  | nil =>
    rw [hres] at hmem2
    cases hmem2
  | cons r rest =>
    refine ⟨r, rest, rfl, ?_⟩
    rw [hres] at hmem2 hsorted
    rw [List.pairwise_cons] at hsorted
    rcases List.mem_cons.mp hmem2 with he | hm
    · rw [← he]
    · have h1 : decide ((RankedItem.mk d 1).score ≤ r.score) = true := hsorted.1 _ hm
      rw [decide_eq_true_eq] at h1
      have h2 : r.score ≤ 1 := hbound r (by rw [hres]; exact List.mem_cons_self _ _)
      exact le_antisymm h2 h1

/-- Every fused result of `reciprocalRankFusion` has a score in `[0,1]`. -/
theorem rrfFusion_bounds (vec kw : List RankedItem)
    (hv : (vec.map RankedItem.id).Nodup) (hk : (kw.map RankedItem.id).Nodup) :
    ∀ r ∈ reciprocalRankFusion vec kw, 0 ≤ r.score ∧ r.score ≤ 1 := by
  intro r hr
  rw [reciprocalRankFusion_eq, List.mem_mergeSort, List.mem_map] at hr
  obtain ⟨e, _, hre⟩ := hr
  have h0 : 0 ≤ (((rrfAccum 0 (kw.map RankedItem.id)
      (rrfAccum 0 (vec.map RankedItem.id) [])).lookup e).getD 0) := by
    rw [rrfCombined vec kw hv hk e]
    have h1 := rrfTerm_nonneg (vec.map RankedItem.id) 0 e
    have h2 := rrfTerm_nonneg (kw.map RankedItem.id) 0 e
    linarith
  rw [← hre]
  exact rrfScore_bounds _ e h0

/-- A document occurring in the vector list whose combined reciprocal sum is
maximal heads the fused output with score exactly 1. -/
theorem rrfFusion_top (vec kw : List RankedItem)
    (hv : (vec.map RankedItem.id).Nodup) (hk : (kw.map RankedItem.id).Nodup)
    (d : String) (hdv : d ∈ vec.map RankedItem.id)
    (hm : ∀ e, rrfTerm 0 (vec.map RankedItem.id) e + rrfTerm 0 (kw.map RankedItem.id) e ≤
      rrfTerm 0 (vec.map RankedItem.id) d + rrfTerm 0 (kw.map RankedItem.id) d) :
    ∃ r rest, reciprocalRankFusion vec kw = r :: rest ∧ r.score = 1 := by
  have hnn : ∀ e, 0 ≤ (((rrfAccum 0 (kw.map RankedItem.id)
      (rrfAccum 0 (vec.map RankedItem.id) [])).lookup e).getD 0) := by
    intro e
    rw [rrfCombined vec kw hv hk e]
    have h1 := rrfTerm_nonneg (vec.map RankedItem.id) 0 e
    have h2 := rrfTerm_nonneg (kw.map RankedItem.id) 0 e
    linarith
  have hpos : 0 < (((rrfAccum 0 (kw.map RankedItem.id)
      (rrfAccum 0 (vec.map RankedItem.id) [])).lookup d).getD 0) := by
    rw [rrfCombined vec kw hv hk d]
    have h1 := rrfTerm_pos_of_mem (vec.map RankedItem.id) 0 d hdv
    have h2 := rrfTerm_nonneg (kw.map RankedItem.id) 0 d
    linarith
  have hknd : (((rrfAccum 0 (kw.map RankedItem.id)
      (rrfAccum 0 (vec.map RankedItem.id) []))).map Prod.fst).Nodup :=
    rrfAccum_keys_nodup _ 0 _ (rrfAccum_keys_nodup _ 0 [] (by simp))
  have hvle : ∀ v ∈ ((rrfAccum 0 (kw.map RankedItem.id)
      (rrfAccum 0 (vec.map RankedItem.id) [])).map Prod.snd),
      v ≤ (((rrfAccum 0 (kw.map RankedItem.id)
        (rrfAccum 0 (vec.map RankedItem.id) [])).lookup d).getD 0) := by
    intro v hvmem
    obtain ⟨p, hp, hpv⟩ := List.mem_map.mp hvmem
    obtain ⟨k0, v0⟩ := p
    have hlk : (rrfAccum 0 (kw.map RankedItem.id)
        (rrfAccum 0 (vec.map RankedItem.id) [])).lookup k0 = some v0 :=
      lookup_eq_some_of_mem_nodup _ k0 v0 hknd hp
    have hv0 : (((rrfAccum 0 (kw.map RankedItem.id)
        (rrfAccum 0 (vec.map RankedItem.id) [])).lookup k0).getD 0) = v0 := by
      rw [hlk]
      rfl
    rw [← hpv]
    dsimp only
    rw [← hv0, rrfCombined vec kw hv hk k0, rrfCombined vec kw hv hk d]
    exact hm k0
  have hdmem : (((rrfAccum 0 (kw.map RankedItem.id)
      (rrfAccum 0 (vec.map RankedItem.id) [])).lookup d).getD 0) ∈
      ((rrfAccum 0 (kw.map RankedItem.id)
        (rrfAccum 0 (vec.map RankedItem.id) [])).map Prod.snd) := by
    have hsome : (rrfAccum 0 (kw.map RankedItem.id)
        (rrfAccum 0 (vec.map RankedItem.id) [])).lookup d =
        some ((((rrfAccum 0 (kw.map RankedItem.id)
          (rrfAccum 0 (vec.map RankedItem.id) [])).lookup d)).getD 0) := by
      cases hlk : (rrfAccum 0 (kw.map RankedItem.id)
          (rrfAccum 0 (vec.map RankedItem.id) [])).lookup d with
      | none =>
        rw [hlk] at hpos
        simp at hpos
      | some v => rfl
    exact List.mem_map_of_mem Prod.snd (mem_of_lookup_eq_some _ _ _ hsome)
  have hmaxeq : pyMax ((rrfAccum 0 (kw.map RankedItem.id)
      (rrfAccum 0 (vec.map RankedItem.id) [])).map Prod.snd) =
      some ((((rrfAccum 0 (kw.map RankedItem.id)
        (rrfAccum 0 (vec.map RankedItem.id) [])).lookup d)).getD 0) := by
    cases hpm : pyMax ((rrfAccum 0 (kw.map RankedItem.id)
        (rrfAccum 0 (vec.map RankedItem.id) [])).map Prod.snd) with
    | none =>
      rw [pyMax_eq_none _ hpm] at hdmem
      cases hdmem
    | some m =>
      have h1 := pyMax_ge _ _ hdmem m hpm
      have h2 := hvle m (pyMax_mem _ m hpm)
      rw [le_antisymm h2 h1]
  have hall : d ∈ ((kw.map RankedItem.id).foldl keysInsert
      ((vec.map RankedItem.id).foldl keysInsert [])) :=
    foldl_keysInsert_mem_acc _ _ d (foldl_keysInsert_mem _ [] d hdv)
  rw [reciprocalRankFusion_eq]
  exact fusedSortedHead _ _ d hnn hall hmaxeq hpos

/-- **C9.** RRF bound (§4.6, §8): on input result lists with no duplicate
ids (as the searches produce), reciprocal-rank fusion accumulates each
document's combined score as the sum of `1/(60 + rank)` over the lists
containing it with 1-based ranks; every fused score lies in `[0,1]`; and
whenever a document present in both input lists attains the maximum
combined reciprocal sum among all candidates, the top-ranked result after
normalization has score exactly 1. -/
theorem C9_rrf_bound_and_normalization (vec kw : List RankedItem)
    (hv : (vec.map RankedItem.id).Nodup) (hk : (kw.map RankedItem.id).Nodup) :
    (∀ d, (((rrfAccum 0 (kw.map RankedItem.id)
          (rrfAccum 0 (vec.map RankedItem.id) [])).lookup d).getD 0)
        = rrfTerm 0 (vec.map RankedItem.id) d + rrfTerm 0 (kw.map RankedItem.id) d) ∧
      (∀ r ∈ reciprocalRankFusion vec kw, 0 ≤ r.score ∧ r.score ≤ 1) ∧
      (∀ d, d ∈ vec.map RankedItem.id → d ∈ kw.map RankedItem.id →
        (∀ e, rrfTerm 0 (vec.map RankedItem.id) e + rrfTerm 0 (kw.map RankedItem.id) e ≤
          rrfTerm 0 (vec.map RankedItem.id) d + rrfTerm 0 (kw.map RankedItem.id) d) →
        ∃ r rest, reciprocalRankFusion vec kw = r :: rest ∧ r.score = 1) :=
  ⟨fun d => rrfCombined vec kw hv hk d,
   rrfFusion_bounds vec kw hv hk,
   fun d hdv _ hm => rrfFusion_top vec kw hv hk d hdv hm⟩

/-- C9 witness: the claim instantiated at the concrete duplicate-free input
lists `[("a", 1)]` and `[("a", 1/2)]`. -/
theorem C9_witness :
    (∀ d, (((rrfAccum 0 ([RankedItem.mk "a" (1 / 2)].map RankedItem.id)
          (rrfAccum 0 ([RankedItem.mk "a" 1].map RankedItem.id) [])).lookup d).getD 0)
        = rrfTerm 0 ([RankedItem.mk "a" 1].map RankedItem.id) d +
            rrfTerm 0 ([RankedItem.mk "a" (1 / 2)].map RankedItem.id) d) ∧
      (∀ r ∈ reciprocalRankFusion [RankedItem.mk "a" 1] [RankedItem.mk "a" (1 / 2)],
        0 ≤ r.score ∧ r.score ≤ 1) ∧
      (∀ d, d ∈ [RankedItem.mk "a" 1].map RankedItem.id →
        d ∈ [RankedItem.mk "a" (1 / 2)].map RankedItem.id →
        (∀ e, rrfTerm 0 ([RankedItem.mk "a" 1].map RankedItem.id) e +
            rrfTerm 0 ([RankedItem.mk "a" (1 / 2)].map RankedItem.id) e ≤
          rrfTerm 0 ([RankedItem.mk "a" 1].map RankedItem.id) d +
            rrfTerm 0 ([RankedItem.mk "a" (1 / 2)].map RankedItem.id) d) →
        ∃ r rest,
          reciprocalRankFusion [RankedItem.mk "a" 1] [RankedItem.mk "a" (1 / 2)] =
            r :: rest ∧ r.score = 1) :=
  C9_rrf_bound_and_normalization [RankedItem.mk "a" 1] [RankedItem.mk "a" (1 / 2)]
    (by simp) (by simp)

end LVS
